import Mathlib

/-!
A shallow embedding of the DWARF index C module (`src/drgn/dwarfindex.c`).

Byte buffers are `List Nat`; every byte access reduces the element modulo 256,
mirroring reads through `uint8_t`/`const char *`. A C pointer pair
`(ptr, end)` into a buffer is represented by the list suffix `[ptr, end)`;
advancing the pointer drops elements from the front of the suffix. C functions
that return `-1` with a Python exception set are modelled with `Except Err`.
-/

namespace Dwarfindex

/-- The exception kinds raised by the C module: `EOFError`, `OverflowError`,
`PyErr_NoMemory`, `NotImplementedError`, `ValueError` ("DIE not found"),
`DwarfFormatError` and `ElfFormatError` (both carrying their message). -/
inductive Err where
  | eof
  | overflow
  | noMemory
  | notImplemented
  | valueError
  | dwarfFormat (msg : String)
  | elfFormat (msg : String)
deriving DecidableEq

abbrev Bytes := List Nat

/-- The byte at offset `i` of a buffer (0 when out of range; all accesses in
the model are bounds-checked before use, as in the C code). -/
def byteAt (bs : Bytes) (i : Nat) : Nat :=
  bs.getD i 0

/-- `read_u8`: bounds check `in_bounds(ptr, end, 1)`, read one byte, advance. -/
def read_u8 : Bytes → Except Err (Nat × Bytes)
  | [] => .error .eof
  | b :: r => .ok (b % 256, r)

/-- `read_u16`: little-endian 16-bit read with bounds check. -/
def read_u16 : Bytes → Except Err (Nat × Bytes)
  | b0 :: b1 :: r => .ok (b0 % 256 + 256 * (b1 % 256), r)
  | _ => .error .eof

/-- `read_u32`: little-endian 32-bit read with bounds check. -/
def read_u32 : Bytes → Except Err (Nat × Bytes)
  | b0 :: b1 :: b2 :: b3 :: r =>
    .ok (b0 % 256 + 256 * (b1 % 256) + 65536 * (b2 % 256) + 16777216 * (b3 % 256), r)
  | _ => .error .eof

/-- `read_u64`: little-endian 64-bit read with bounds check. -/
def read_u64 : Bytes → Except Err (Nat × Bytes)
  | b0 :: b1 :: b2 :: b3 :: b4 :: b5 :: b6 :: b7 :: r =>
    .ok (b0 % 256 + 256 * (b1 % 256) + 65536 * (b2 % 256) + 16777216 * (b3 % 256) +
         4294967296 * (b4 % 256) + 1099511627776 * (b5 % 256) +
         281474976710656 * (b6 % 256) + 72057594037927936 * (b7 % 256), r)
  | _ => .error .eof

/-- The loop body of `read_uleb128`, carrying `shift` and the accumulated
`*value`. The C code checks `*ptr >= end` (here: the empty suffix), raises
`OverflowError` when `shift == 63 && byte > 1`, otherwise ors
`(byte & 0x7f) << shift` into the accumulator (the or is an addition because
the bit ranges are disjoint and, with the overflow check, never exceed
2^64 - 1) and stops at the first byte with the high bit clear. -/
def read_uleb128_go : Bytes → Nat → Nat → Except Err (Nat × Bytes)
  | [], _, _ => .error .eof
  | b :: r, shift, acc =>
    if shift = 63 ∧ 1 < b % 256 then .error .overflow
    else if b % 256 < 128 then .ok (acc + b % 256 * 2 ^ shift, r)
    else read_uleb128_go r (shift + 7) (acc + b % 256 % 128 * 2 ^ shift)

/-- `read_uleb128` from the C source. -/
def read_uleb128 (bs : Bytes) : Except Err (Nat × Bytes) :=
  read_uleb128_go bs 0 0

/-- The inline `ATTRIB_LEB128` loop of `index_cu`: skip bytes until one with
the high bit clear, `EOFError` when the buffer runs out first. -/
def skip_leb128 : Bytes → Except Err Bytes
  | [] => .error .eof
  | b :: r => if b % 256 < 128 then .ok r else skip_leb128 r

/-- The `ATTRIB_STRING` handler of `index_cu`: `memchr` for a NUL byte and
advance one past it; `EOFError` when the buffer is empty or has no NUL. -/
def skip_cstring : Bytes → Except Err Bytes
  | [] => .error .eof
  | b :: r => if b % 256 = 0 then .ok r else skip_cstring r

/-- The NUL-terminated string starting at the head of a buffer, as its list
of byte values (what `strcmp`/`name_hash` read through a `const char *`). -/
def cstr (bs : Bytes) : Bytes :=
  (bs.map (· % 256)).takeWhile (· ≠ 0)

/-- Reference ULEB128 decoder: the mathematical base-128 little-endian value
denoted by the encoding at the head of the buffer, together with the number
of bytes of the encoding; `none` when no terminating byte (high bit clear)
exists. This is the specification the C reader is compared against. -/
def ulebDecode : Bytes → Option (Nat × Nat)
  | [] => none
  | b :: r =>
    if b % 256 < 128 then some (b % 256, 1)
    else match ulebDecode r with
      | none => none
      | some (v, k) => some (b % 256 % 128 + 128 * v, k + 1)

/-- The inputs on which `read_uleb128` raises `OverflowError`: the first nine
bytes all have the continuation bit set and the tenth byte (read when
`shift == 63`) has numeric value greater than 1. -/
def ulebOverflowInput (bs : Bytes) : Prop :=
  10 ≤ bs.length ∧ (∀ i < 9, 128 ≤ byteAt bs i % 256) ∧ 1 < byteAt bs 9 % 256

instance : DecidablePred ulebOverflowInput := by
  intro bs
  unfold ulebOverflowInput
  infer_instance

theorem ulebDecode_pos {bs : Bytes} {v k : Nat} (h : ulebDecode bs = some (v, k)) : 1 ≤ k := by
  cases bs with
  | nil => simp [ulebDecode] at h
  | cons b r =>
    unfold ulebDecode at h
    split at h
    · simp at h
      omega
    · cases hr : ulebDecode r with
      | none => rw [hr] at h; simp at h
      | some p => rw [hr] at h; cases p; simp at h; omega

theorem read_uleb128_go_overflow_iff (bs : Bytes) :
    ∀ j a, read_uleb128_go bs (7 * j) a = .error .overflow ↔
      ∃ m, j + m = 9 ∧ m < bs.length ∧ (∀ i < m, 128 ≤ byteAt bs i % 256) ∧
        1 < byteAt bs m % 256 := by
  induction bs with
  | nil =>
    intro j a
    simp [read_uleb128_go]
  | cons b r ih =>
    intro j a
    unfold read_uleb128_go
    by_cases hj : j = 9
    · subst hj
      by_cases hb : 1 < b % 256
      · simp only [show 7 * 9 = 63 from rfl, hb, and_true, if_pos rfl]
        constructor
        · intro _
          refine ⟨0, by omega, by simp, by omega, ?_⟩
          simpa [byteAt] using hb
        · intro _; rfl
      · have hb' : b % 256 < 128 := by omega
        simp only [show 7 * 9 = 63 from rfl, if_pos rfl, hb, and_false, if_false, if_pos hb']
        constructor
        · intro h; simp at h
        · rintro ⟨m, hm, _, _, hlt⟩
          have hm0 : m = 0 := by omega
          subst hm0
          simp [byteAt] at hlt
          omega
    · have h63 : ¬(7 * j = 63 ∧ 1 < b % 256) := by
        rintro ⟨h1, _⟩; omega
      rw [if_neg h63]
      by_cases hb : b % 256 < 128
      · rw [if_pos hb]
        constructor
        · intro h; simp at h
        · rintro ⟨m, hm, _, hcont, hlt⟩
          rcases Nat.eq_zero_or_pos m with hm0 | hmpos
          · subst hm0
            simp [byteAt] at hlt
            omega
          · have := hcont 0 hmpos
            simp [byteAt] at this
            omega
      · rw [if_neg hb]
        have h7 : 7 * j + 7 = 7 * (j + 1) := by ring
        rw [h7, ih (j + 1)]
        constructor
        · rintro ⟨m, hm, hlen, hcont, hlt⟩
          refine ⟨m + 1, by omega, by simpa using Nat.succ_lt_succ hlen, ?_, ?_⟩
          · intro i hi
            cases i with
            | zero => simp [byteAt]; omega
            | succ i' => simpa [byteAt] using hcont i' (by omega)
          · simpa [byteAt] using hlt
        · rintro ⟨m, hm, hlen, hcont, hlt⟩
          have hmpos : 1 ≤ m := by
            by_contra hm0
            have : m = 0 := by omega
            subst this
            simp [byteAt] at hlt
            omega
          refine ⟨m - 1, by omega, by simp at hlen; omega, ?_, ?_⟩
          · intro i hi
            have := hcont (i + 1) (by omega)
            simpa [byteAt] using this
          · have : m - 1 + 1 = m := by omega
            rw [← this] at hlt
            simpa [byteAt] using hlt

theorem read_uleb128_go_ok_of_decode (bs : Bytes) :
    ∀ j a v k, ulebDecode bs = some (v, k) →
      (j + k ≤ 9 ∨ (j + k = 10 ∧ byteAt bs (k - 1) % 256 ≤ 1)) →
      read_uleb128_go bs (7 * j) a = .ok (a + v * 2 ^ (7 * j), bs.drop k) := by
  induction bs with
  | nil => intro j a v k h; simp [ulebDecode] at h
  | cons b r ih =>
    intro j a v k hdec hfit
    unfold ulebDecode at hdec
    by_cases hb : b % 256 < 128
    · rw [if_pos hb] at hdec
      simp at hdec
      obtain ⟨hv, hk⟩ := hdec
      subst hv; subst hk
      unfold read_uleb128_go
      have h63 : ¬(7 * j = 63 ∧ 1 < b % 256) := by
        rintro ⟨h1, h2⟩
        have hj : j = 9 := by omega
        rcases hfit with h | ⟨h, hle⟩
        · omega
        · simp [byteAt] at hle
          omega
      rw [if_neg h63, if_pos hb]
      simp
    · rw [if_neg hb] at hdec
      cases hr : ulebDecode r with
      | none => rw [hr] at hdec; simp at hdec
      | some p =>
        obtain ⟨v', k'⟩ := p
        rw [hr] at hdec
        simp at hdec
        obtain ⟨hv, hk⟩ := hdec
        have hk1 : 1 ≤ k' := ulebDecode_pos hr
        unfold read_uleb128_go
        have h63 : ¬(7 * j = 63 ∧ 1 < b % 256) := by
          rintro ⟨h1, _⟩
          have hj : j = 9 := by omega
          omega
        rw [if_neg h63, if_neg hb]
        have h7 : 7 * j + 7 = 7 * (j + 1) := by ring
        rw [h7]
        have hfit' : (j + 1) + k' ≤ 9 ∨ ((j + 1) + k' = 10 ∧ byteAt r (k' - 1) % 256 ≤ 1) := by
          rcases hfit with h | ⟨h, hle⟩
          · left; omega
          · right
            refine ⟨by omega, ?_⟩
            have : k - 1 = (k' - 1) + 1 := by omega
            rw [this] at hle
            simpa [byteAt] using hle
        have := ih (j + 1) (a + b % 256 % 128 * 2 ^ (7 * j)) v' k' hr hfit'
        rw [this]
        congr 2
        · subst hv
          have : 2 ^ (7 * (j + 1)) = 2 ^ (7 * j) * 128 := by
            rw [show 7 * (j + 1) = 7 * j + 7 from by ring, pow_add]
            norm_num
          rw [this]
          ring
        · subst hk
          simp

theorem read_uleb128_go_decode_of_ok (bs : Bytes) :
    ∀ j a v r', j ≤ 9 → read_uleb128_go bs (7 * j) a = .ok (v, r') →
      ∃ v' k, ulebDecode bs = some (v', k) ∧ v = a + v' * 2 ^ (7 * j) ∧
        r' = bs.drop k := by
  induction bs with
  | nil => intro j a v r' _ h; simp [read_uleb128_go] at h
  | cons b r ih =>
    intro j a v r' hj h
    unfold read_uleb128_go at h
    split at h
    · simp at h
    · rename_i hno
      by_cases hb : b % 256 < 128
      · rw [if_pos hb] at h
        simp at h
        obtain ⟨hv, hr⟩ := h
        refine ⟨b % 256, 1, ?_, by omega, by simp [hr]⟩
        unfold ulebDecode
        rw [if_pos hb]
      · rw [if_neg hb] at h
        have h7 : 7 * j + 7 = 7 * (j + 1) := by ring
        rw [h7] at h
        have hj' : j + 1 ≤ 9 := by
          have : 7 * j ≠ 63 := by
            intro hc
            exact hno ⟨hc, by omega⟩
          omega
        obtain ⟨v', k, hdec, hv, hr⟩ := ih (j + 1) _ v r' hj' h
        refine ⟨b % 256 % 128 + 128 * v', k + 1, ?_, ?_, by simp [hr]⟩
        · unfold ulebDecode
          rw [if_neg hb, hdec]
        · rw [hv]
          have : 2 ^ (7 * (j + 1)) = 2 ^ (7 * j) * 128 := by
            rw [show 7 * (j + 1) = 7 * j + 7 from by ring, pow_add]
            norm_num
          rw [this]
          ring

theorem read_uleb128_go_error_cases (bs : Bytes) :
    ∀ s a e, read_uleb128_go bs s a = .error e → e = .eof ∨ e = .overflow := by
  induction bs with
  | nil => intro s a e h; simp [read_uleb128_go] at h; simp [h]
  | cons b r ih =>
    intro s a e h
    unfold read_uleb128_go at h
    split at h
    · simp at h; simp [h]
    · split at h
      · simp at h
      · exact ih _ _ _ h

theorem ulebDecode_none_all_cont {bs : Bytes} (h : ulebDecode bs = none) :
    ∀ i < bs.length, 128 ≤ byteAt bs i % 256 := by
  induction bs with
  | nil => intro i hi; simp at hi
  | cons b r ih =>
    intro i hi
    unfold ulebDecode at h
    split at h
    · simp at h
    · rename_i hb
      cases i with
      | zero => simp [byteAt]; omega
      | succ i' =>
        cases hr : ulebDecode r with
        | none =>
          have := ih hr i' (by simpa using Nat.lt_of_succ_lt_succ hi)
          simpa [byteAt] using this
        | some p => rw [hr] at h; cases p; simp at h

/-- Claim C5 (amended). `read_uleb128` raises `OverflowError` exactly when the
first nine encoding bytes all carry the continuation bit and the tenth byte
has numeric value greater than 1 — a condition implied by, but not equivalent
to, the denoted value not fitting in an unsigned 64-bit integer (redundant
long encodings of small values also trip it). Otherwise, when a terminating
byte exists among the bytes the reader inspects, it returns the standard
base-128 little-endian value and advances one past the first byte with the
high bit clear, and it raises `EOFError` when the encoding is truncated. -/
theorem read_uleb128_characterization :
    (∀ bs, read_uleb128 bs = .error .overflow ↔ ulebOverflowInput bs)
    ∧ (∀ bs v k, ulebDecode bs = some (v, k) →
        k ≤ 9 ∨ (k = 10 ∧ byteAt bs 9 % 256 ≤ 1) →
        read_uleb128 bs = .ok (v, bs.drop k))
    ∧ (∀ bs v r, read_uleb128 bs = .ok (v, r) →
        ∃ k, ulebDecode bs = some (v, k) ∧ r = bs.drop k)
    ∧ (∀ bs, ulebDecode bs = none → ¬ ulebOverflowInput bs →
        read_uleb128 bs = .error .eof) := by
  have hover : ∀ bs, read_uleb128 bs = .error .overflow ↔ ulebOverflowInput bs := by
    intro bs
    have h := read_uleb128_go_overflow_iff bs 0 0
    simp only [Nat.mul_zero] at h
    rw [read_uleb128, h]
    constructor
    · rintro ⟨m, hm, hlen, hcont, hlt⟩
      have : m = 9 := by omega
      subst this
      exact ⟨by omega, hcont, hlt⟩
    · rintro ⟨hlen, hcont, hlt⟩
      exact ⟨9, by omega, by omega, hcont, hlt⟩
  have hok : ∀ bs v k, ulebDecode bs = some (v, k) →
      k ≤ 9 ∨ (k = 10 ∧ byteAt bs 9 % 256 ≤ 1) →
      read_uleb128 bs = .ok (v, bs.drop k) := by
    intro bs v k hdec hfit
    have h := read_uleb128_go_ok_of_decode bs 0 0 v k hdec (by
      rcases hfit with h | ⟨h1, h2⟩
      · left; omega
      · right
        refine ⟨by omega, ?_⟩
        have : k - 1 = 9 := by omega
        rw [this]
        exact h2)
    simpa using h
  have hdecok : ∀ bs v r, read_uleb128 bs = .ok (v, r) →
      ∃ k, ulebDecode bs = some (v, k) ∧ r = bs.drop k := by
    intro bs v r h
    rw [read_uleb128] at h
    have h0 : read_uleb128_go bs (7 * 0) 0 = .ok (v, r) := by simpa using h
    obtain ⟨v', k, hdec, hv, hr⟩ := read_uleb128_go_decode_of_ok bs 0 0 v r (by omega) h0
    refine ⟨k, ?_, hr⟩
    have : v' = v := by simpa using hv.symm
    rw [← this]
    exact hdec
  refine ⟨hover, hok, hdecok, ?_⟩
  intro bs hdec hnot
  cases h : read_uleb128 bs with
  | ok p =>
    obtain ⟨v, r⟩ := p
    obtain ⟨k, hk, _⟩ := hdecok bs v r h
    rw [hdec] at hk
    exact absurd hk (by simp)
  | error e =>
    rcases read_uleb128_go_error_cases bs 0 0 e h with he | he
    · rw [he]
    · rw [he] at h
      exact absurd ((hover bs).mp h) hnot

/-- Claim C5, counterexample to the claim as stated: on the 11-byte redundant
encoding of 0 (ten continuation bytes then a terminator) `read_uleb128`
raises `OverflowError` even though the denoted value, 0, fits in an unsigned
64-bit integer. -/
theorem read_uleb128_spurious_overflow :
    read_uleb128 [128, 128, 128, 128, 128, 128, 128, 128, 128, 128, 0] = .error .overflow
    ∧ ulebDecode [128, 128, 128, 128, 128, 128, 128, 128, 128, 128, 0] = some (0, 11)
    ∧ (0 : Nat) < 2 ^ 64 :=
  ⟨rfl, rfl, by norm_num⟩

/-- Witness for the amended C5 theorem at the two-byte encoding of 389. -/
theorem read_uleb128_characterization_witness :
    ulebDecode [133, 3, 7] = some (389, 2) ∧
    read_uleb128 [133, 3, 7] = .ok (389, [7]) := by
  refine ⟨by decide, ?_⟩
  have h := read_uleb128_characterization.2.1 [133, 3, 7] 389 2 (by decide) (by decide)
  simpa using h

/-- An `Elf64_Rela` entry; fields are the 64-bit values of `r_offset`,
`r_info` and the two's-complement bit pattern of `r_addend`. -/
structure Rela where
  r_offset : Nat
  r_info : Nat
  r_addend : Nat
deriving DecidableEq

/-- `sizeof(Elf64_Rela)` = 3 × 8 bytes. -/
def sizeofElf64Rela : Nat := 24

/-- `sizeof(Elf64_Sym)` = 4 + 1 + 1 + 2 + 8 + 8 bytes. -/
def sizeofElf64Sym : Nat := 24

def R_X86_64_NONE : Nat := 0

def R_X86_64_64 : Nat := 1

def R_X86_64_32 : Nat := 10

/-- `r_sym = r_info >> 32`. -/
def rSym (r : Rela) : Nat := r.r_info / 4294967296

/-- `r_type = r_info & 0xffffffff`. -/
def rType (r : Rela) : Nat := r.r_info % 4294967296

/-- Little-endian in-place store of the low `w` bytes of `v` at `off`
(the `*(uint32_t *)p = ...` / `*(uint64_t *)p = ...` stores). -/
def writeLE : Bytes → Nat → Nat → Nat → Bytes
  | s, _, 0, _ => s
  | s, off, w + 1, v => writeLE (s.set off (v % 256)) (off + 1) w (v / 256)

/-- The `w` little-endian bytes of `v`. -/
def leBytes (w v : Nat) : Bytes :=
  (List.range w).map (fun k => v / 256 ^ k % 256)

/-- The `w` bytes of a section starting at `off`. -/
def readBytes (s : Bytes) (off w : Nat) : Bytes :=
  (List.range w).map (fun k => byteAt s (off + k))

/-- One iteration of the relocation loop of `apply_relocations`. The symbol
table is modelled by its byte size and by the `st_value` of the entry at each
index; `num_syms` is computed as `symtab.size / sizeof(Elf64_Rela)` exactly as
in the C code. Checks happen in source order: symbol bound, then offset
bound, then the truncating store. -/
def processRela (symtabSize : Nat) (stValue : Nat → Nat) (sect : Bytes) (r : Rela) :
    Except Err Bytes :=
  if rType r = R_X86_64_NONE then .ok sect
  else if rType r = R_X86_64_32 then
    if symtabSize / sizeofElf64Rela ≤ rSym r then .error (.elfFormat "invalid relocation symbol")
    else if sect.length < r.r_offset + 4 then .error (.elfFormat "invalid relocation offset")
    else .ok (writeLE sect r.r_offset 4 ((stValue (rSym r) + r.r_addend) % 4294967296))
  else if rType r = R_X86_64_64 then
    if symtabSize / sizeofElf64Rela ≤ rSym r then .error (.elfFormat "invalid relocation symbol")
    else if sect.length < r.r_offset + 8 then .error (.elfFormat "invalid relocation offset")
    else .ok (writeLE sect r.r_offset 8 ((stValue (rSym r) + r.r_addend) % 18446744073709551616))
  else .error .notImplemented

/-- `apply_relocations`: fold the relocation entries of the paired RELA
section, in order, over the target debug section. -/
def apply_relocations (sect : Bytes) (relas : List Rela) (symtabSize : Nat)
    (stValue : Nat → Nat) : Except Err Bytes :=
  relas.foldlM (processRela symtabSize stValue) sect

theorem processRela_ok_cases {symtabSize : Nat} {stValue : Nat → Nat} {sect : Bytes} {r : Rela}
    {sect' : Bytes} (h : processRela symtabSize stValue sect r = .ok sect') :
    (rType r = R_X86_64_NONE ∧ sect' = sect)
    ∨ (rType r = R_X86_64_32 ∧ rSym r < symtabSize / sizeofElf64Rela ∧
        r.r_offset + 4 ≤ sect.length ∧
        sect' = writeLE sect r.r_offset 4 ((stValue (rSym r) + r.r_addend) % 4294967296))
    ∨ (rType r = R_X86_64_64 ∧ rSym r < symtabSize / sizeofElf64Rela ∧
        r.r_offset + 8 ≤ sect.length ∧
        sect' = writeLE sect r.r_offset 8 ((stValue (rSym r) + r.r_addend) % 18446744073709551616)) := by
  unfold processRela at h
  split at h
  · left
    rename_i ht
    simp at h
    exact ⟨ht, h.symm⟩
  · split at h
    · rename_i ht0 ht
      split at h
      · simp at h
      · split at h
        · simp at h
        · right; left
          rename_i hs hb
          simp at h
          exact ⟨ht, by omega, by omega, h.symm⟩
    · split at h
      · rename_i ht0 ht32 ht
        split at h
        · simp at h
        · split at h
          · simp at h
          · right; right
            rename_i hs hb
            simp at h
            exact ⟨ht, by omega, by omega, h.symm⟩
      · simp at h

theorem writeLE_length : ∀ (w : Nat) (s : Bytes) (off v : Nat),
    (writeLE s off w v).length = s.length := by
  intro w
  induction w with
  | zero => intro s off v; rfl
  | succ w ih =>
    intro s off v
    rw [writeLE, ih]
    simp

theorem byteAt_set_ne : ∀ (s : Bytes) (i j x : Nat), i ≠ j →
    byteAt (s.set i x) j = byteAt s j := by
  intro s
  induction s with
  | nil => intro i j x _; simp [byteAt]
  | cons b r ih =>
    intro i j x hij
    cases i with
    | zero =>
      cases j with
      | zero => omega
      | succ j' => simp [byteAt, List.set]
    | succ i' =>
      cases j with
      | zero => simp [byteAt, List.set]
      | succ j' =>
        simp only [List.set, byteAt, List.getD_cons_succ]
        exact ih i' j' x (by omega)

theorem byteAt_set_self : ∀ (s : Bytes) (i x : Nat), i < s.length →
    byteAt (s.set i x) i = x := by
  intro s
  induction s with
  | nil => intro i x h; simp at h
  | cons b r ih =>
    intro i x h
    cases i with
    | zero => simp [byteAt, List.set]
    | succ i' =>
      simp only [List.set, byteAt, List.getD_cons_succ]
      exact ih i' x (by simpa using Nat.lt_of_succ_lt_succ h)

theorem writeLE_byteAt_outside : ∀ (w : Nat) (s : Bytes) (off v p : Nat),
    p < off ∨ off + w ≤ p → byteAt (writeLE s off w v) p = byteAt s p := by
  intro w
  induction w with
  | zero => intro s off v p _; rfl
  | succ w ih =>
    intro s off v p hp
    rw [writeLE]
    rw [ih _ (off + 1) _ p (by omega)]
    exact byteAt_set_ne s off p _ (by omega)

theorem writeLE_byteAt_inside : ∀ (w : Nat) (s : Bytes) (off v k : Nat),
    k < w → off + w ≤ s.length →
    byteAt (writeLE s off w v) (off + k) = v / 256 ^ k % 256 := by
  intro w
  induction w with
  | zero => intro s off v k hk _; omega
  | succ w ih =>
    intro s off v k hk hlen
    rw [writeLE]
    cases k with
    | zero =>
      rw [writeLE_byteAt_outside w _ (off + 1) (v / 256) (off + 0) (by omega)]
      simp only [Nat.add_zero, Nat.pow_zero, Nat.div_one]
      exact byteAt_set_self s off (v % 256) (by omega)
    | succ k' =>
      have harr : off + (k' + 1) = (off + 1) + k' := by omega
      rw [harr, ih (s.set off (v % 256)) (off + 1) (v / 256) k' (by omega) (by simp; omega)]
      rw [Nat.div_div_eq_div_mul]
      congr 2
      rw [pow_succ]
      ring

theorem readBytes_writeLE {s : Bytes} {off w v : Nat} (h : off + w ≤ s.length) :
    readBytes (writeLE s off w v) off w = leBytes w v := by
  unfold readBytes leBytes
  apply List.map_congr_left
  intro k hk
  rw [List.mem_range] at hk
  exact writeLE_byteAt_inside w s off v k hk h

theorem apply_relocations_length : ∀ (relas : List Rela) (sect sect' : Bytes)
    (symtabSize : Nat) (stValue : Nat → Nat),
    apply_relocations sect relas symtabSize stValue = .ok sect' →
    sect'.length = sect.length := by
  intro relas
  induction relas with
  | nil =>
    intro sect sect' _ _ h
    have h' : Except.ok sect = Except.ok sect' := h
    have : sect = sect' := by simpa using h'
    rw [this]
  | cons r rest ih =>
    intro sect sect' sysz stv h
    rw [apply_relocations, List.foldlM_cons] at h
    cases hp : processRela sysz stv sect r with
    | error e =>
      rw [hp] at h
      have h' : (Except.error e : Except Err Bytes) = Except.ok sect' := h
      simp at h'
    | ok s1 =>
      rw [hp] at h
      have h' : apply_relocations s1 rest sysz stv = .ok sect' := h
      have h1 := ih s1 sect' sysz stv h'
      rcases processRela_ok_cases hp with ⟨_, hs⟩ | ⟨_, _, _, hs⟩ | ⟨_, _, _, hs⟩ <;>
        rw [h1, hs] <;> simp [writeLE_length]

theorem processRela_length {symtabSize : Nat} {stValue : Nat → Nat} {sect sect' : Bytes}
    {r : Rela} (h : processRela symtabSize stValue sect r = .ok sect') :
    sect'.length = sect.length := by
  rcases processRela_ok_cases h with ⟨_, hs⟩ | ⟨_, _, _, hs⟩ | ⟨_, _, _, hs⟩ <;>
    rw [hs] <;> simp [writeLE_length]

theorem processRela_error_cases {symtabSize : Nat} {stValue : Nat → Nat} {sect : Bytes}
    {r : Rela} {e : Err} (h : processRela symtabSize stValue sect r = .error e) :
    ((rType r = R_X86_64_32 ∨ rType r = R_X86_64_64) ∧ ∃ m, e = .elfFormat m)
    ∨ (rType r ≠ R_X86_64_NONE ∧ rType r ≠ R_X86_64_32 ∧ rType r ≠ R_X86_64_64 ∧
        e = .notImplemented) := by
  unfold processRela at h
  split at h
  · simp at h
  · rename_i h0
    split at h
    · rename_i h32
      split at h
      · left
        refine ⟨Or.inl h32, "invalid relocation symbol", ?_⟩
        simpa using h.symm
      · split at h
        · left
          refine ⟨Or.inl h32, "invalid relocation offset", ?_⟩
          simpa using h.symm
        · simp at h
    · rename_i h32
      split at h
      · rename_i h64
        split at h
        · left
          refine ⟨Or.inr h64, "invalid relocation symbol", ?_⟩
          simpa using h.symm
        · split at h
          · left
            refine ⟨Or.inr h64, "invalid relocation offset", ?_⟩
            simpa using h.symm
          · simp at h
      · rename_i h64
        right
        refine ⟨h0, h32, h64, ?_⟩
        simpa using h.symm

theorem apply_relocations_untouched : ∀ (relas : List Rela) (sect sect' : Bytes)
    (symtabSize : Nat) (stValue : Nat → Nat) (p : Nat),
    apply_relocations sect relas symtabSize stValue = .ok sect' →
    (∀ r ∈ relas, (rType r = R_X86_64_32 → p < r.r_offset ∨ r.r_offset + 4 ≤ p) ∧
                  (rType r = R_X86_64_64 → p < r.r_offset ∨ r.r_offset + 8 ≤ p)) →
    byteAt sect' p = byteAt sect p := by
  intro relas
  induction relas with
  | nil =>
    intro sect sect' _ _ p h _
    have h' : Except.ok sect = Except.ok sect' := h
    have : sect = sect' := by simpa using h'
    rw [this]
  | cons r rest ih =>
    intro sect sect' sysz stv p h hdisj
    rw [apply_relocations, List.foldlM_cons] at h
    cases hp : processRela sysz stv sect r with
    | error e =>
      rw [hp] at h
      have h' : (Except.error e : Except Err Bytes) = Except.ok sect' := h
      simp at h'
    | ok s1 =>
      rw [hp] at h
      have h' : apply_relocations s1 rest sysz stv = .ok sect' := h
      have hrest := ih s1 sect' sysz stv p h'
        (fun r' hr' => hdisj r' (List.mem_cons_of_mem _ hr'))
      rw [hrest]
      obtain ⟨h32, h64⟩ := hdisj r (List.mem_cons_self _ _)
      rcases processRela_ok_cases hp with ⟨_, hs⟩ | ⟨ht, _, _, hs⟩ | ⟨ht, _, _, hs⟩
      · rw [hs]
      · rw [hs]
        exact writeLE_byteAt_outside _ _ _ _ _ (h32 ht)
      · rw [hs]
        exact writeLE_byteAt_outside _ _ _ _ _ (h64 ht)

/-- Claim C3 (amended). After `apply_relocations` succeeds on a debug section,
for every entry of type `R_X86_64_32` (resp. `R_X86_64_64`) in the RELA
section whose written byte range is disjoint from the ranges written by all
later 32/64-bit entries, the 4 (resp. 8) bytes at `r_offset` equal the
little-endian encoding of `sym[r_sym].st_value + r_addend` truncated to the
write width (without the disjointness proviso the claim fails: a later
overlapping relocation overwrites the bytes). And, when every entry has a
supported type, a 32/64-bit entry whose `r_offset` plus write size exceeds the
section size makes `apply_relocations` fail with an `ElfFormatError`. -/
theorem apply_relocations_postcondition :
    (∀ (pre post : List Rela) (r : Rela) (sect sect' : Bytes) (symtabSize : Nat)
        (stValue : Nat → Nat) (w m : Nat),
      apply_relocations sect (pre ++ r :: post) symtabSize stValue = .ok sect' →
      ((rType r = R_X86_64_32 ∧ w = 4 ∧ m = 4294967296) ∨
       (rType r = R_X86_64_64 ∧ w = 8 ∧ m = 18446744073709551616)) →
      (∀ r' ∈ post,
        (rType r' = R_X86_64_32 →
          r.r_offset + w ≤ r'.r_offset ∨ r'.r_offset + 4 ≤ r.r_offset) ∧
        (rType r' = R_X86_64_64 →
          r.r_offset + w ≤ r'.r_offset ∨ r'.r_offset + 8 ≤ r.r_offset)) →
      readBytes sect' r.r_offset w = leBytes w ((stValue (rSym r) + r.r_addend) % m))
    ∧ (∀ (sect : Bytes) (relas : List Rela) (symtabSize : Nat) (stValue : Nat → Nat),
      (∀ r ∈ relas, rType r = R_X86_64_NONE ∨ rType r = R_X86_64_32 ∨ rType r = R_X86_64_64) →
      (∃ r ∈ relas, (rType r = R_X86_64_32 ∧ sect.length < r.r_offset + 4) ∨
                    (rType r = R_X86_64_64 ∧ sect.length < r.r_offset + 8)) →
      ∃ msg, apply_relocations sect relas symtabSize stValue = .error (.elfFormat msg)) := by
  constructor
  · intro pre post r sect sect' sysz stv w m h hw hdisj
    rw [apply_relocations, List.foldlM_append] at h
    cases h1 : List.foldlM (processRela sysz stv) sect pre with
    | error e =>
      rw [h1] at h
      have h' : (Except.error e : Except Err Bytes) = Except.ok sect' := h
      simp at h'
    | ok s1 =>
      rw [h1] at h
      have h2 : List.foldlM (processRela sysz stv) s1 (r :: post) = .ok sect' := h
      rw [List.foldlM_cons] at h2
      cases h3 : processRela sysz stv s1 r with
      | error e =>
        rw [h3] at h2
        have h' : (Except.error e : Except Err Bytes) = Except.ok sect' := h2
        simp at h'
      | ok s2 =>
        rw [h3] at h2
        have h4 : apply_relocations s2 post sysz stv = .ok sect' := h2
        have hcases := processRela_ok_cases h3
        have hmain : s2 = writeLE s1 r.r_offset w ((stv (rSym r) + r.r_addend) % m)
            ∧ r.r_offset + w ≤ s1.length := by
          rcases hw with ⟨ht, hwv, hmv⟩ | ⟨ht, hwv, hmv⟩ <;> subst hwv <;> subst hmv
          · rcases hcases with ⟨ht', _⟩ | ⟨_, _, hb, hs⟩ | ⟨ht', _, _, _⟩
            · rw [ht] at ht'
              exact absurd ht' (by decide)
            · exact ⟨hs, hb⟩
            · rw [ht] at ht'
              exact absurd ht' (by decide)
          · rcases hcases with ⟨ht', _⟩ | ⟨ht', _, _, _⟩ | ⟨_, _, hb, hs⟩
            · rw [ht] at ht'
              exact absurd ht' (by decide)
            · rw [ht] at ht'
              exact absurd ht' (by decide)
            · exact ⟨hs, hb⟩
        obtain ⟨hs2, hbound⟩ := hmain
        have hinner : readBytes s2 r.r_offset w =
            leBytes w ((stv (rSym r) + r.r_addend) % m) := by
          rw [hs2]
          exact readBytes_writeLE hbound
        rw [← hinner]
        unfold readBytes
        apply List.map_congr_left
        intro k hk
        rw [List.mem_range] at hk
        apply apply_relocations_untouched post s2 sect' sysz stv (r.r_offset + k) h4
        intro r' hr'
        obtain ⟨hd32, hd64⟩ := hdisj r' hr'
        exact ⟨fun ht' => by rcases hd32 ht' with hc | hc <;> omega,
               fun ht' => by rcases hd64 ht' with hc | hc <;> omega⟩
  · intro sect relas
    induction relas generalizing sect with
    | nil =>
      intro sysz stv _ hex
      simp at hex
    | cons r rest ih =>
      intro sysz stv htypes hex
      rw [apply_relocations, List.foldlM_cons]
      cases hp : processRela sysz stv sect r with
      | error e =>
        rcases processRela_error_cases hp with ⟨_, m, hm⟩ | ⟨hn, h32, h64, _⟩
        · refine ⟨m, ?_⟩
          subst hm
          rfl
        · rcases htypes r (List.mem_cons_self _ _) with h | h | h <;> contradiction
      | ok s1 =>
        obtain ⟨rx, hrx, hx⟩ := hex
        rcases List.mem_cons.mp hrx with heq | hmem
        · subst heq
          exfalso
          rcases processRela_ok_cases hp with ⟨ht, _⟩ | ⟨ht, _, hb, _⟩ | ⟨ht, _, hb, _⟩ <;>
            rcases hx with ⟨ht', hb'⟩ | ⟨ht', hb'⟩ <;> rw [ht'] at ht <;>
            first
            | exact absurd ht (by decide)
            | omega
        · have hlen := processRela_length hp
          obtain ⟨msg, hmsg⟩ := ih s1 sysz stv
            (fun r' h' => htypes r' (List.mem_cons_of_mem _ h'))
            ⟨rx, hmem, by rw [hlen]; exact hx⟩
          exact ⟨msg, hmsg⟩

/-- Claim C3, counterexample to the claim as stated: two `R_X86_64_32` entries
both writing at offset 0; after success the bytes at the first entry's
`r_offset` hold the second entry's value, not the first's. -/
theorem apply_relocations_overlap_counterexample :
    apply_relocations [9, 9, 9, 9] [⟨0, 10, 0⟩, ⟨0, 10, 1⟩] 24 (fun _ => 1) = .ok [2, 0, 0, 0]
    ∧ readBytes [2, 0, 0, 0] 0 4 = [2, 0, 0, 0]
    ∧ leBytes 4 ((1 + 0) % 4294967296) = [1, 0, 0, 0]
    ∧ ([2, 0, 0, 0] : Bytes) ≠ [1, 0, 0, 0] :=
  ⟨rfl, rfl, rfl, by decide⟩

/-- Witness for the amended C3 theorem on a one-entry relocation list and on a
list whose single 64-bit entry overhangs the section end by one byte. -/
theorem apply_relocations_postcondition_witness :
    (apply_relocations [7, 7, 7, 7] [⟨0, 10, 0⟩] 24 (fun _ => 258) = .ok [2, 1, 0, 0]
      ∧ readBytes [2, 1, 0, 0] 0 4 = leBytes 4 (((fun _ => 258) (rSym ⟨0, 10, 0⟩) +
          (Rela.mk 0 10 0).r_addend) % 4294967296))
    ∧ (∃ msg, apply_relocations [7, 7, 7, 7, 7, 7, 7] [⟨0, 1, 0⟩] 24 (fun _ => 258) =
        .error (.elfFormat msg)) := by
  constructor
  · refine ⟨rfl, ?_⟩
    have h := apply_relocations_postcondition.1 [] [] ⟨0, 10, 0⟩ [7, 7, 7, 7] [2, 1, 0, 0]
      24 (fun _ => 258) 4 4294967296 (by rfl) (Or.inl ⟨rfl, rfl, rfl⟩) (by simp)
    exact h
  · exact apply_relocations_postcondition.2 [7, 7, 7, 7, 7, 7, 7] [⟨0, 1, 0⟩] 24 (fun _ => 258)
      (by decide) ⟨⟨0, 1, 0⟩, by simp, Or.inr ⟨rfl, by decide⟩⟩

/-- Claim C7: a relocation of type `R_X86_64_32` or `R_X86_64_64` is rejected
with the invalid-relocation-symbol `ElfFormatError` precisely when `r_sym` is
at least `symtab.size / sizeof(Elf64_Sym)`; the code divides by
`sizeof(Elf64_Rela)` instead, but the two structure sizes are both 24 bytes,
so the computed bound is the same. -/
theorem relocation_symbol_check (symtabSize : Nat) (stValue : Nat → Nat) (sect : Bytes)
    (r : Rela) (ht : rType r = R_X86_64_32 ∨ rType r = R_X86_64_64) :
    processRela symtabSize stValue sect r = .error (.elfFormat "invalid relocation symbol") ↔
      symtabSize / sizeofElf64Sym ≤ rSym r := by
  have hsz : sizeofElf64Sym = sizeofElf64Rela := rfl
  rw [hsz]
  have hne : rType r ≠ R_X86_64_NONE := by
    rcases ht with h | h <;> rw [h] <;> decide
  rcases ht with h | h
  · rw [processRela, if_neg hne, if_pos h]
    by_cases hs : symtabSize / sizeofElf64Rela ≤ rSym r
    · simp [hs]
    · rw [if_neg hs]
      split
      · simp [hs]
      · simp [hs]
  · have h32 : rType r ≠ R_X86_64_32 := by rw [h]; decide
    rw [processRela, if_neg hne, if_neg h32, if_pos h]
    by_cases hs : symtabSize / sizeofElf64Rela ≤ rSym r
    · simp [hs]
    · rw [if_neg hs]
      split
      · simp [hs]
      · simp [hs]

/-- Witness for C7: a 32-bit relocation naming symbol 1 against a one-entry
symbol table is rejected; one naming symbol 0 is not rejected on symbol
grounds. -/
theorem relocation_symbol_check_witness :
    processRela 24 (fun _ => 5) [0, 0, 0, 0] ⟨0, 4294967306, 0⟩ =
      .error (.elfFormat "invalid relocation symbol")
    ∧ processRela 24 (fun _ => 5) [0, 0, 0, 0] ⟨0, 10, 0⟩ ≠
      .error (.elfFormat "invalid relocation symbol") := by
  constructor
  · exact (relocation_symbol_check 24 (fun _ => 5) [0, 0, 0, 0] ⟨0, 4294967306, 0⟩
      (Or.inl (by decide))).mpr (by decide)
  · intro hc
    have := (relocation_symbol_check 24 (fun _ => 5) [0, 0, 0, 0] ⟨0, 10, 0⟩
      (Or.inl (by decide))).mp hc
    revert this
    decide

/-- Claim C10: an `R_X86_64_NONE` relocation entry is accepted unconditionally
— no symbol bound check, no offset bound check, no write — leaving the section
unchanged. -/
theorem relocation_none_noop (symtabSize : Nat) (stValue : Nat → Nat) (sect : Bytes)
    (r : Rela) (h : rType r = R_X86_64_NONE) :
    processRela symtabSize stValue sect r = .ok sect := by
  rw [processRela, if_pos h]

/-- Witness for C10: a NONE entry whose `r_sym` (77) exceeds the one-entry
symbol table and whose `r_offset` (999999) lies far outside the three-byte
section is still accepted and writes nothing. -/
theorem relocation_none_noop_witness :
    rSym ⟨999999, 330712481792, 5⟩ = 77
    ∧ 24 / sizeofElf64Sym < 77
    ∧ ([1, 2, 3] : Bytes).length < 999999
    ∧ processRela 24 (fun _ => 9) [1, 2, 3] ⟨999999, 330712481792, 5⟩ = .ok [1, 2, 3] :=
  ⟨by decide, by decide, by decide,
    relocation_none_noop 24 (fun _ => 9) [1, 2, 3] ⟨999999, 330712481792, 5⟩ (by decide)⟩

/-- A `struct die_hash_entry`. The C entry stores a `const char *name`
pointing at a NUL-terminated string; the model stores the string content (the
bytes `strcmp` and `name_hash` read), plus the abstract identities of the
`cu` pointer and the DIE pointer. A slot is occupied iff the `Option` is
`some`, mirroring `name != NULL`. -/
structure DieHashEntry where
  name : Bytes
  tag : Nat
  cu : Nat
  ptr : Nat
deriving DecidableEq

/-- `DIE_HASH_SIZE = 1 << 17`. -/
def dieHashSize : Nat := 131072

abbrev DieHash := Nat → Option DieHashEntry

def emptyDieHash : DieHash := fun _ => none

/-- `name_hash`: DJB2 over the bytes of the name in `uint32_t` arithmetic. -/
def name_hash (name : Bytes) : Nat :=
  name.foldl (fun h b => (h * 33 + b % 256) % 4294967296) 5381

/-- The probe-loop test `entry->tag == tag && strcmp(entry->name, name) == 0`,
shared by `add_die_hash_entry` and `DwarfIndex_find`. -/
def entryMatch (e : DieHashEntry) (name : Bytes) (tag : Nat) : Bool :=
  e.tag == tag && e.name == name

def tableSet (t : DieHash) (i : Nat) (e : DieHashEntry) : DieHash :=
  fun j => if j = i then some e else t j

/-- The probe loop of `add_die_hash_entry`, with the remaining number of
probes as fuel: the C loop stops with `PyErr_NoMemory` when the incremented
index returns to `orig_i`, i.e. after `DIE_HASH_SIZE` probes. -/
def addAux (t : DieHash) (e : DieHashEntry) : Nat → Nat → Except Err DieHash
  | _, 0 => .error .noMemory
  | i, fuel + 1 =>
    match t (i % dieHashSize) with
    | none => .ok (tableSet t (i % dieHashSize) e)
    | some e0 => if entryMatch e0 e.name e.tag then .ok t else addAux t e (i + 1) fuel

/-- `add_die_hash_entry`: linear probing from `name_hash(name) & DIE_HASH_MASK`. -/
def add_die_hash_entry (t : DieHash) (e : DieHashEntry) : Except Err DieHash :=
  addAux t e (name_hash e.name % dieHashSize) dieHashSize

/-- The probe loop of `DwarfIndex_find` (same sequence and test as insertion;
`none` both for an empty slot and for a full fruitless walk). -/
def findAux (t : DieHash) (name : Bytes) (tag : Nat) : Nat → Nat → Option DieHashEntry
  | _, 0 => none
  | i, fuel + 1 =>
    match t (i % dieHashSize) with
    | none => none
    | some e => if entryMatch e name tag then some e else findAux t name tag (i + 1) fuel

def findDieHash (t : DieHash) (name : Bytes) (tag : Nat) : Option DieHashEntry :=
  findAux t name tag (name_hash name % dieHashSize) dieHashSize

/-- The lookup part of `DwarfIndex_find`: a fruitless probe raises
`ValueError` ("DIE not found"). -/
def dwarfIndexFind (t : DieHash) (name : Bytes) (tag : Nat) : Except Err DieHashEntry :=
  match findDieHash t name tag with
  | some e => .ok e
  | none => .error .valueError

/-- The hash-table contents after a sequence of insertions into the initially
empty table (construction aborts on the first failing insertion). -/
def runInserts (es : List DieHashEntry) : Except Err DieHash :=
  es.foldlM add_die_hash_entry emptyDieHash

/-- The first entry of the insertion sequence whose `(tag, name)` key matches. -/
def firstIns (es : List DieHashEntry) (name : Bytes) (tag : Nat) : Option DieHashEntry :=
  es.find? (fun e => entryMatch e name tag)

/-- The linear-probe failure condition of `DwarfIndex_find`: starting from
DJB2 of the name masked to 17 bits, the probe sequence reaches an empty slot
— every slot before it occupied and matching neither tag nor name — or walks
the whole table meeting no match. -/
def probeMiss (t : DieHash) (name : Bytes) (tag : Nat) : Prop :=
  (∃ k < dieHashSize, t ((name_hash name % dieHashSize + k) % dieHashSize) = none ∧
      ∀ j < k, ∃ e, t ((name_hash name % dieHashSize + j) % dieHashSize) = some e ∧
        entryMatch e name tag = false)
  ∨ (∀ j < dieHashSize, ∃ e, t ((name_hash name % dieHashSize + j) % dieHashSize) = some e ∧
      entryMatch e name tag = false)

theorem entryMatch_eq {e : DieHashEntry} {name : Bytes} {tag : Nat}
    (h : entryMatch e name tag = true) : e.name = name ∧ e.tag = tag := by
  simp [entryMatch] at h
  exact ⟨h.2, h.1⟩

theorem entryMatch_self (e : DieHashEntry) : entryMatch e e.name e.tag = true := by
  simp [entryMatch]

theorem findAux_mono {t t' : DieHash} {name : Bytes} {tag : Nat}
    (hpres : ∀ j e, t j = some e → t' j = some e) :
    ∀ fuel i e, findAux t name tag i fuel = some e → findAux t' name tag i fuel = some e := by
  intro fuel
  induction fuel with
  | zero => intro i e h; simp [findAux] at h
  | succ fuel ih =>
    intro i e h
    simp only [findAux] at h ⊢
    cases ht : t (i % dieHashSize) with
    | none =>
      simp only [ht] at h
      exact absurd h (by simp)
    | some e0 =>
      simp only [ht] at h
      simp only [hpres _ _ ht]
      by_cases hm : entryMatch e0 name tag = true
      · rw [if_pos hm] at h ⊢
        exact h
      · rw [if_neg hm] at h ⊢
        exact ih _ _ h

theorem addAux_persist {t : DieHash} {e : DieHashEntry} :
    ∀ fuel i t', addAux t e i fuel = .ok t' →
      ∀ j e0, t j = some e0 → t' j = some e0 := by
  intro fuel
  induction fuel with
  | zero => intro i t' h; simp [addAux] at h
  | succ fuel ih =>
    intro i t' h j e0 hj
    simp only [addAux] at h
    cases ht : t (i % dieHashSize) with
    | none =>
      simp only [ht] at h
      simp only [Except.ok.injEq] at h
      rw [← h]
      unfold tableSet
      have hne : j ≠ i % dieHashSize := by
        intro hc
        rw [hc, ht] at hj
        simp at hj
      rw [if_neg hne]
      exact hj
    | some e1 =>
      simp only [ht] at h
      by_cases hm : entryMatch e1 e.name e.tag = true
      · rw [if_pos hm] at h
        simp only [Except.ok.injEq] at h
        rw [← h]
        exact hj
      · rw [if_neg hm] at h
        exact ih _ _ h _ _ hj

theorem addAux_subset {t : DieHash} {e : DieHashEntry} :
    ∀ fuel i t', addAux t e i fuel = .ok t' →
      ∀ j e0, t' j = some e0 → t j = some e0 ∨ e0 = e := by
  intro fuel
  induction fuel with
  | zero => intro i t' h; simp [addAux] at h
  | succ fuel ih =>
    intro i t' h j e0 hj
    simp only [addAux] at h
    cases ht : t (i % dieHashSize) with
    | none =>
      simp only [ht] at h
      simp only [Except.ok.injEq] at h
      rw [← h] at hj
      unfold tableSet at hj
      by_cases hc : j = i % dieHashSize
      · rw [if_pos hc] at hj
        right
        simpa using hj.symm
      · rw [if_neg hc] at hj
        left
        exact hj
    | some e1 =>
      simp only [ht] at h
      by_cases hm : entryMatch e1 e.name e.tag = true
      · rw [if_pos hm] at h
        simp only [Except.ok.injEq] at h
        rw [← h] at hj
        left
        exact hj
      · rw [if_neg hm] at h
        exact ih _ _ h _ _ hj

theorem findAux_some_mem {t : DieHash} {name : Bytes} {tag : Nat} :
    ∀ fuel i e, findAux t name tag i fuel = some e →
      (∃ j, t j = some e) ∧ entryMatch e name tag = true := by
  intro fuel
  induction fuel with
  | zero => intro i e h; simp [findAux] at h
  | succ fuel ih =>
    intro i e h
    simp only [findAux] at h
    cases ht : t (i % dieHashSize) with
    | none =>
      simp only [ht] at h
      exact absurd h (by simp)
    | some e0 =>
      simp only [ht] at h
      by_cases hm : entryMatch e0 name tag = true
      · rw [if_pos hm] at h
        simp only [Option.some.injEq] at h
        rw [← h]
        exact ⟨⟨i % dieHashSize, ht⟩, hm⟩
      · rw [if_neg hm] at h
        exact ih _ _ h

theorem addAux_find_self {t : DieHash} {e : DieHashEntry} :
    ∀ fuel i t', addAux t e i fuel = .ok t' →
      findAux t e.name e.tag i fuel = none →
      findAux t' e.name e.tag i fuel = some e := by
  intro fuel
  induction fuel with
  | zero => intro i t' h; simp [addAux] at h
  | succ fuel ih =>
    intro i t' hadd hfind
    simp only [addAux] at hadd
    simp only [findAux] at hfind ⊢
    cases ht : t (i % dieHashSize) with
    | none =>
      simp only [ht] at hadd
      simp only [Except.ok.injEq] at hadd
      rw [← hadd]
      have hsl : tableSet t (i % dieHashSize) e (i % dieHashSize) = some e := by
        unfold tableSet
        rw [if_pos rfl]
      simp only [hsl]
      rw [if_pos (entryMatch_self e)]
    | some e0 =>
      simp only [ht] at hadd hfind
      by_cases hm : entryMatch e0 e.name e.tag = true
      · rw [if_pos hm] at hfind
        simp at hfind
      · rw [if_neg hm] at hadd hfind
        have ht' : t' (i % dieHashSize) = some e0 := addAux_persist fuel _ t' hadd _ _ ht
        simp only [ht']
        rw [if_neg hm]
        exact ih _ _ hadd hfind

theorem addAux_dup {t : DieHash} {e : DieHashEntry} :
    ∀ fuel i e0, findAux t e.name e.tag i fuel = some e0 →
      addAux t e i fuel = .ok t := by
  intro fuel
  induction fuel with
  | zero => intro i e0 h; simp [findAux] at h
  | succ fuel ih =>
    intro i e0 hfind
    simp only [findAux] at hfind
    simp only [addAux]
    cases ht : t (i % dieHashSize) with
    | none =>
      simp only [ht] at hfind
      exact absurd hfind (by simp)
    | some e1 =>
      simp only [ht] at hfind ⊢
      by_cases hm : entryMatch e1 e.name e.tag = true
      · rw [if_pos hm]
      · rw [if_neg hm] at hfind ⊢
        exact ih _ _ hfind

theorem findAux_none_iff (t : DieHash) (name : Bytes) (tag : Nat) :
    ∀ fuel i, findAux t name tag i fuel = none ↔
      ((∃ k < fuel, t ((i + k) % dieHashSize) = none ∧
          ∀ j < k, ∃ e, t ((i + j) % dieHashSize) = some e ∧ entryMatch e name tag = false)
       ∨ (∀ j < fuel, ∃ e, t ((i + j) % dieHashSize) = some e ∧
          entryMatch e name tag = false)) := by
  intro fuel
  induction fuel with
  | zero =>
    intro i
    simp only [findAux]
    constructor
    · intro _
      right
      intro j hj
      omega
    · intro _
      trivial
  | succ fuel ih =>
    intro i
    simp only [findAux]
    cases ht : t (i % dieHashSize) with
    | none =>
      simp only [ht]
      constructor
      · intro _
        left
        exact ⟨0, by omega, by simpa using ht, by omega⟩
      · intro _
        trivial
    | some e0 =>
      simp only [ht]
      by_cases hm : entryMatch e0 name tag = true
      · rw [if_pos hm]
        constructor
        · intro h
          simp at h
        · intro h
          exfalso
          rcases h with ⟨k, hk, hnone, hbefore⟩ | hall
          · rcases Nat.eq_zero_or_pos k with hk0 | hkpos
            · subst hk0
              simp [ht] at hnone
            · obtain ⟨e1, he1, hm1⟩ := hbefore 0 hkpos
              simp [ht] at he1
              rw [← he1] at hm1
              rw [hm] at hm1
              exact absurd hm1 (by simp)
          · obtain ⟨e1, he1, hm1⟩ := hall 0 (by omega)
            simp [ht] at he1
            rw [← he1] at hm1
            rw [hm] at hm1
            exact absurd hm1 (by simp)
      · rw [if_neg hm]
        rw [ih (i + 1)]
        have harith : ∀ k : Nat, i + 1 + k = i + (k + 1) := by omega
        constructor
        · intro h
          rcases h with ⟨k, hk, hnone, hbefore⟩ | hall
          · left
            refine ⟨k + 1, by omega, by rw [← harith k]; exact hnone, ?_⟩
            intro j hj
            cases j with
            | zero =>
              exact ⟨e0, by simpa using ht, by simpa using hm⟩
            | succ j' =>
              have := hbefore j' (by omega)
              rw [harith j'] at this
              exact this
          · right
            intro j hj
            cases j with
            | zero =>
              exact ⟨e0, by simpa using ht, by simpa using hm⟩
            | succ j' =>
              have := hall j' (by omega)
              rw [harith j'] at this
              exact this
        · intro h
          rcases h with ⟨k, hk, hnone, hbefore⟩ | hall
          · cases k with
            | zero =>
              simp [ht] at hnone
            | succ k' =>
              left
              refine ⟨k', by omega, by rw [harith k']; exact hnone, ?_⟩
              intro j hj
              have := hbefore (j + 1) (by omega)
              rw [harith j]
              exact this
          · right
            intro j hj
            have := hall (j + 1) (by omega)
            rw [harith j]
            exact this

theorem firstIns_append_left : ∀ (pre l2 : List DieHashEntry) (name : Bytes) (tag : Nat),
    (∃ e ∈ pre, entryMatch e name tag = true) →
    firstIns (pre ++ l2) name tag = firstIns pre name tag := by
  intro pre
  induction pre with
  | nil => intro l2 name tag h; simp at h
  | cons a l ih =>
    intro l2 name tag h
    simp only [firstIns, List.cons_append, List.find?]
    cases hm : entryMatch a name tag with
    | true => rfl
    | false =>
      have h' : ∃ e ∈ l, entryMatch e name tag = true := by
        obtain ⟨e, he, hme⟩ := h
        rcases List.mem_cons.mp he with heq | hmem
        · subst heq
          rw [hme] at hm
          exact absurd hm (by simp)
        · exact ⟨e, hmem, hme⟩
      exact ih l2 name tag h'

theorem firstIns_not_mem_append : ∀ (pre l2 : List DieHashEntry) (name : Bytes) (tag : Nat),
    (∀ e ∈ pre, entryMatch e name tag = false) →
    firstIns (pre ++ l2) name tag = firstIns l2 name tag := by
  intro pre
  induction pre with
  | nil => intro l2 name tag _; rfl
  | cons a l ih =>
    intro l2 name tag h
    simp only [firstIns, List.cons_append, List.find?]
    rw [h a (List.mem_cons_self _ _)]
    exact ih l2 name tag (fun e he => h e (List.mem_cons_of_mem _ he))

theorem firstIns_isSome : ∀ {es : List DieHashEntry} {name : Bytes} {tag : Nat},
    (∃ e ∈ es, entryMatch e name tag = true) →
    ∃ e0, firstIns es name tag = some e0 := by
  intro es
  induction es with
  | nil => intro name tag h; simp at h
  | cons a l ih =>
    intro name tag h
    simp only [firstIns, List.find?]
    cases hm : entryMatch a name tag with
    | true => exact ⟨a, rfl⟩
    | false =>
      apply ih
      obtain ⟨e, he, hme⟩ := h
      rcases List.mem_cons.mp he with heq | hmem
      · subst heq
        rw [hme] at hm
        exact absurd hm (by simp)
      · exact ⟨e, hmem, hme⟩

theorem runInserts_invariant : ∀ (es pre : List DieHashEntry) (t0 t : DieHash),
    (∀ name tag, (∃ e ∈ pre, entryMatch e name tag = true) →
       findDieHash t0 name tag = firstIns pre name tag) →
    (∀ j e0, t0 j = some e0 → e0 ∈ pre) →
    List.foldlM add_die_hash_entry t0 es = .ok t →
    (∀ name tag, (∃ e ∈ pre ++ es, entryMatch e name tag = true) →
       findDieHash t name tag = firstIns (pre ++ es) name tag) ∧
    (∀ j e0, t j = some e0 → e0 ∈ pre ++ es) := by
  intro es
  induction es with
  | nil =>
    intro pre t0 t hP hQ hrun
    have ht : t0 = t := by
      have h' : Except.ok t0 = Except.ok t := hrun
      simpa using h'
    subst ht
    constructor
    · intro name tag h
      rw [List.append_nil] at h ⊢
      exact hP name tag h
    · intro j e0 hj
      rw [List.append_nil]
      exact hQ j e0 hj
  | cons e rest ih =>
    intro pre t0 t hP hQ hrun
    rw [List.foldlM_cons] at hrun
    cases hadd : add_die_hash_entry t0 e with
    | error err =>
      rw [hadd] at hrun
      exact absurd (show (Except.error err : Except Err DieHash) = .ok t from hrun) (by simp)
    | ok t1 =>
      rw [hadd] at hrun
      have hrun' : List.foldlM add_die_hash_entry t1 rest = .ok t := hrun
      have hQ1 : ∀ j e0, t1 j = some e0 → e0 ∈ pre ++ [e] := by
        intro j e0 hj
        rcases addAux_subset dieHashSize _ t1 hadd j e0 hj with hold | hnew
        · exact List.mem_append_left _ (hQ _ _ hold)
        · rw [hnew]
          exact List.mem_append_right _ (by simp)
      have hP1 : ∀ name tag, (∃ e' ∈ pre ++ [e], entryMatch e' name tag = true) →
          findDieHash t1 name tag = firstIns (pre ++ [e]) name tag := by
        intro name tag hex
        by_cases hpre : ∃ e' ∈ pre, entryMatch e' name tag = true
        · have hfind0 : findDieHash t0 name tag = firstIns pre name tag := hP name tag hpre
          obtain ⟨efirst, hef⟩ := firstIns_isSome hpre
          have hfind0' : findDieHash t0 name tag = some efirst := by rw [hfind0, hef]
          have hfind1 : findDieHash t1 name tag = some efirst :=
            findAux_mono (addAux_persist dieHashSize _ t1 hadd) dieHashSize _ _ hfind0'
          rw [hfind1, firstIns_append_left pre [e] name tag hpre, hef]
        · have hme : entryMatch e name tag = true := by
            obtain ⟨e', he', hm'⟩ := hex
            rcases List.mem_append.mp he' with hmem | hmem
            · exact absurd ⟨e', hmem, hm'⟩ hpre
            · simp at hmem
              subst hmem
              exact hm'
          obtain ⟨hname, htag⟩ := entryMatch_eq hme
          have hnone : findDieHash t0 name tag = none := by
            cases hf : findDieHash t0 name tag with
            | none => rfl
            | some e0 =>
              obtain ⟨⟨j, hj⟩, hm0⟩ := findAux_some_mem dieHashSize _ _ hf
              exact absurd ⟨e0, hQ _ _ hj, hm0⟩ hpre
          rw [← hname, ← htag] at hnone ⊢
          have hfind1 : findDieHash t1 e.name e.tag = some e := by
            exact addAux_find_self dieHashSize _ t1 hadd hnone
          rw [hfind1]
          have hprefalse : ∀ e' ∈ pre, entryMatch e' e.name e.tag = false := by
            intro e' he'
            cases hm' : entryMatch e' e.name e.tag with
            | false => rfl
            | true =>
              exfalso
              apply hpre
              rw [← hname, ← htag]
              exact ⟨e', he', hm'⟩
          rw [firstIns_not_mem_append pre [e] e.name e.tag hprefalse]
          simp only [firstIns, List.find?, entryMatch_self e]
      have hmain := ih (pre ++ [e]) t1 t hP1 hQ1 hrun'
      constructor
      · intro name tag hex
        have := hmain.1 name tag (by simpa [List.append_assoc] using hex)
        simpa [List.append_assoc] using this
      · intro j e0 hj
        have := hmain.2 j e0 hj
        simpa [List.append_assoc] using this

/-- Claim C1: starting from the empty table, if a sequence of insertions via
`add_die_hash_entry` all succeed, then for every `(name, tag)` key inserted,
`DwarfIndex_find` returns the entry inserted first for that key (later
duplicates with equal tag and byte-equal name were discarded); and `find`
raises the not-found `ValueError` exactly when the linear-probe sequence from
DJB2 of the name masked to 17 bits reaches an empty slot — or walks the whole
table — without meeting an entry whose tag and name bytes both match. -/
theorem die_hash_find_first_inserted :
    ∀ (es : List DieHashEntry) (t : DieHash), runInserts es = .ok t →
      (∀ name tag, (∃ e ∈ es, entryMatch e name tag = true) →
        ∃ efirst, firstIns es name tag = some efirst ∧
          dwarfIndexFind t name tag = .ok efirst)
      ∧ (∀ name tag, dwarfIndexFind t name tag = .error .valueError ↔ probeMiss t name tag) := by
  intro es t hrun
  have hinv := runInserts_invariant es [] emptyDieHash t
    (by intro name tag h; simp at h)
    (by intro j e0 h; simp [emptyDieHash] at h) hrun
  constructor
  · intro name tag hex
    obtain ⟨efirst, hef⟩ := firstIns_isSome hex
    have hfind := hinv.1 name tag (by simpa using hex)
    simp only [List.nil_append] at hfind
    refine ⟨efirst, hef, ?_⟩
    rw [dwarfIndexFind, hfind, hef]
  · intro name tag
    have hiff : findDieHash t name tag = none ↔ probeMiss t name tag := by
      rw [findDieHash, findAux_none_iff t name tag dieHashSize (name_hash name % dieHashSize)]
      exact Iff.rfl
    constructor
    · intro h
      rw [dwarfIndexFind] at h
      apply hiff.mp
      cases hf : findDieHash t name tag with
      | some e =>
        simp only [hf] at h
        exact absurd h (by simp)
      | none => rfl
    · intro hmiss
      rw [dwarfIndexFind, hiff.mpr hmiss]

def c1Entries : List DieHashEntry :=
  [⟨[102, 111, 111], 52, 1, 11⟩, ⟨[98, 97, 114], 19, 1, 20⟩, ⟨[102, 111, 111], 52, 2, 30⟩]

def c1Table : DieHash :=
  match runInserts c1Entries with
  | .ok t => t
  | .error _ => emptyDieHash

/-- Witness for C1: "foo"/`DW_TAG_variable` is inserted twice with different
DIE pointers; `find` returns the first insertion. -/
theorem die_hash_find_first_inserted_witness :
    runInserts c1Entries = .ok c1Table
    ∧ (∃ e ∈ c1Entries, entryMatch e [102, 111, 111] 52 = true)
    ∧ firstIns c1Entries [102, 111, 111] 52 = some ⟨[102, 111, 111], 52, 1, 11⟩
    ∧ (∃ efirst, firstIns c1Entries [102, 111, 111] 52 = some efirst ∧
        dwarfIndexFind c1Table [102, 111, 111] 52 = .ok efirst) := by
  refine ⟨rfl, by decide, by decide, ?_⟩
  exact (die_hash_find_first_inserted c1Entries c1Table rfl).1 [102, 111, 111] 52 (by decide)

def ATTRIB_BLOCK1 : Nat := 243

def ATTRIB_BLOCK2 : Nat := 244

def ATTRIB_BLOCK4 : Nat := 245

def ATTRIB_EXPRLOC : Nat := 246

def ATTRIB_LEB128 : Nat := 247

def ATTRIB_STRING : Nat := 248

def ATTRIB_SIBLING_REF1 : Nat := 249

def ATTRIB_SIBLING_REF2 : Nat := 250

def ATTRIB_SIBLING_REF4 : Nat := 251

def ATTRIB_SIBLING_REF8 : Nat := 252

def ATTRIB_SIBLING_REF_UDATA : Nat := 253

def ATTRIB_NAME_STRP : Nat := 254

def ATTRIB_NAME_STRING : Nat := 255

def ATTRIB_MIN_CMD : Nat := 243

def DW_TAG_class_type : Nat := 2

def DW_TAG_enumeration_type : Nat := 4

def DW_TAG_structure_type : Nat := 19

def DW_TAG_typedef : Nat := 22

def DW_TAG_union_type : Nat := 23

def DW_TAG_base_type : Nat := 36

def DW_TAG_variable : Nat := 52

def DW_AT_sibling : Nat := 1

def DW_AT_name : Nat := 3

def DW_AT_declaration : Nat := 60

def DW_FORM_addr : Nat := 1

def DW_FORM_block2 : Nat := 3

def DW_FORM_block4 : Nat := 4

def DW_FORM_data2 : Nat := 5

def DW_FORM_data4 : Nat := 6

def DW_FORM_data8 : Nat := 7

def DW_FORM_string : Nat := 8

def DW_FORM_block1 : Nat := 10

def DW_FORM_data1 : Nat := 11

def DW_FORM_flag : Nat := 12

def DW_FORM_sdata : Nat := 13

def DW_FORM_strp : Nat := 14

def DW_FORM_udata : Nat := 15

def DW_FORM_ref_addr : Nat := 16

def DW_FORM_ref1 : Nat := 17

def DW_FORM_ref2 : Nat := 18

def DW_FORM_ref4 : Nat := 19

def DW_FORM_ref8 : Nat := 20

def DW_FORM_ref_udata : Nat := 21

def DW_FORM_indirect : Nat := 22

def DW_FORM_sec_offset : Nat := 23

def DW_FORM_exprloc : Nat := 24

def DW_FORM_flag_present : Nat := 25

def DW_FORM_ref_sig8 : Nat := 32

/-- A `struct abbrev_decl`: the compiled command buffer, including the
trailing 0 terminator, the filtered tag byte and the children byte that
`read_abbrev_decl` appends. -/
structure AbbrevDecl where
  cmds : List Nat
deriving DecidableEq

/-- The skip-coalescing append of `read_abbrev_decl` for a fixed-size skip
command: if the previous emitted byte is a literal skip (`< ATTRIB_MIN_CMD`),
either merge into it (sum still a literal) or saturate it to 242 and emit the
remainder `prev + cmd - 243 + 1` as a new literal. -/
def emitFixed (acc : List Nat) (cmd : Nat) : List Nat :=
  match acc.getLast? with
  | some prev =>
    if prev < ATTRIB_MIN_CMD then
      if prev + cmd < ATTRIB_MIN_CMD then acc.dropLast ++ [prev + cmd]
      else acc.dropLast ++ [ATTRIB_MIN_CMD - 1, prev + cmd - ATTRIB_MIN_CMD + 1]
    else acc ++ [cmd]
  | none => acc ++ [cmd]

/-- Processing of one `(name, form)` attribute pair by `read_abbrev_decl`:
the `DW_AT_sibling` and `DW_AT_name` special commands (appended without
coalescing, as the C `goto append_cmd` skips the merge block), the
`DW_AT_declaration` tag filter, and the form switch; fixed-size skips pass
through `emitFixed`. Returns the extended command buffer and the possibly
zeroed tag. -/
def processPair (addressSize : Nat) (is64 : Bool) (name form tag : Nat) (acc : List Nat) :
    Except Err (List Nat × Nat) :=
  if name = DW_AT_sibling ∧ (form = DW_FORM_ref1 ∨ form = DW_FORM_ref2 ∨ form = DW_FORM_ref4 ∨
      form = DW_FORM_ref8 ∨ form = DW_FORM_ref_udata) then
    .ok (acc ++ [if form = DW_FORM_ref1 then ATTRIB_SIBLING_REF1
      else if form = DW_FORM_ref2 then ATTRIB_SIBLING_REF2
      else if form = DW_FORM_ref4 then ATTRIB_SIBLING_REF4
      else if form = DW_FORM_ref8 then ATTRIB_SIBLING_REF8
      else ATTRIB_SIBLING_REF_UDATA], tag)
  else if name = DW_AT_name ∧ tag ≠ 0 ∧ (form = DW_FORM_strp ∨ form = DW_FORM_string) then
    .ok (acc ++ [if form = DW_FORM_strp then ATTRIB_NAME_STRP else ATTRIB_NAME_STRING], tag)
  else
    let tag' := if name = DW_AT_declaration ∧ tag ≠ DW_TAG_variable then 0 else tag
    if form = DW_FORM_addr then .ok (emitFixed acc (addressSize % 256), tag')
    else if form = DW_FORM_data1 ∨ form = DW_FORM_ref1 ∨ form = DW_FORM_flag then
      .ok (emitFixed acc 1, tag')
    else if form = DW_FORM_data2 ∨ form = DW_FORM_ref2 then .ok (emitFixed acc 2, tag')
    else if form = DW_FORM_data4 ∨ form = DW_FORM_ref4 then .ok (emitFixed acc 4, tag')
    else if form = DW_FORM_data8 ∨ form = DW_FORM_ref8 ∨ form = DW_FORM_ref_sig8 then
      .ok (emitFixed acc 8, tag')
    else if form = DW_FORM_block1 then .ok (acc ++ [ATTRIB_BLOCK1], tag')
    else if form = DW_FORM_block2 then .ok (acc ++ [ATTRIB_BLOCK2], tag')
    else if form = DW_FORM_block4 then .ok (acc ++ [ATTRIB_BLOCK4], tag')
    else if form = DW_FORM_exprloc then .ok (acc ++ [ATTRIB_EXPRLOC], tag')
    else if form = DW_FORM_sdata ∨ form = DW_FORM_udata ∨ form = DW_FORM_ref_udata then
      .ok (acc ++ [ATTRIB_LEB128], tag')
    else if form = DW_FORM_ref_addr ∨ form = DW_FORM_sec_offset ∨ form = DW_FORM_strp then
      .ok (emitFixed acc (if is64 then 8 else 4), tag')
    else if form = DW_FORM_string then .ok (acc ++ [ATTRIB_STRING], tag')
    else if form = DW_FORM_flag_present then .ok (acc, tag')
    else if form = DW_FORM_indirect then .error .notImplemented
    else .error (.dwarfFormat "unknown attribute form")

/-- The attribute loop of `read_abbrev_decl` restated over an already decoded
pair list (the loop's byte reads and its processing commute, since processing
touches no input bytes); related to the byte-level loop by
`attrLoop_decodePairs`. -/
def compilePairs (addressSize : Nat) (is64 : Bool) :
    List (Nat × Nat) → Nat → List Nat → Except Err (List Nat × Nat)
  | [], tag, acc => .ok (acc, tag)
  | (name, form) :: ps, tag, acc =>
    match processPair addressSize is64 name form tag acc with
    | .error e => .error e
    | .ok (acc', tag') => compilePairs addressSize is64 ps tag' acc'

theorem read_uleb128_go_shrinks : ∀ (bs : Bytes) (s a v : Nat) (r : Bytes),
    read_uleb128_go bs s a = .ok (v, r) → r.length < bs.length := by
  intro bs
  induction bs with
  | nil => intro s a v r h; simp [read_uleb128_go] at h
  | cons b rest ih =>
    intro s a v r h
    unfold read_uleb128_go at h
    split at h
    · simp at h
    · split at h
      · simp at h
        rw [← h.2]
        simp
      · have := ih _ _ _ _ h
        simp
        omega

theorem read_uleb128_shrinks {bs : Bytes} {v : Nat} {r : Bytes}
    (h : read_uleb128 bs = .ok (v, r)) : r.length < bs.length :=
  read_uleb128_go_shrinks bs 0 0 v r h

/-- The attribute loop of `read_abbrev_decl`: read ULEB128 `(name, form)`
pairs until `(0, 0)`, compiling each into the command buffer. -/
def attrLoop (addressSize : Nat) (is64 : Bool) (bs : Bytes) (tag : Nat) (acc : List Nat) :
    Except Err (List Nat × Nat × Bytes) :=
  match h1 : read_uleb128 bs with
  | .error e => .error e
  | .ok (name, r1) =>
    match h2 : read_uleb128 r1 with
    | .error e => .error e
    | .ok (form, r2) =>
      if name = 0 ∧ form = 0 then .ok (acc, tag, r2)
      else
        match processPair addressSize is64 name form tag acc with
        | .error e => .error e
        | .ok (acc', tag') => attrLoop addressSize is64 r2 tag' acc'
termination_by bs.length
decreasing_by
  have hb1 := read_uleb128_shrinks h1
  have hb2 := read_uleb128_shrinks h2
  omega

/-- Reference decoder for the attribute-pair list: the `(name, form)` ULEB128
pairs before the terminating `(0, 0)`, and the bytes after it. -/
def decodePairs (bs : Bytes) : Option (List (Nat × Nat) × Bytes) :=
  match h1 : read_uleb128 bs with
  | .error _ => none
  | .ok (name, r1) =>
    match h2 : read_uleb128 r1 with
    | .error _ => none
    | .ok (form, r2) =>
      if name = 0 ∧ form = 0 then some ([], r2)
      else
        match decodePairs r2 with
        | none => none
        | some (ps, rest) => some ((name, form) :: ps, rest)
termination_by bs.length
decreasing_by
  have hb1 := read_uleb128_shrinks h1
  have hb2 := read_uleb128_shrinks h2
  omega

theorem decodePairs_unfold (bs : Bytes) :
    decodePairs bs =
      match read_uleb128 bs with
      | .error _ => none
      | .ok (name, r1) =>
        match read_uleb128 r1 with
        | .error _ => none
        | .ok (form, r2) =>
          if name = 0 ∧ form = 0 then some ([], r2)
          else match decodePairs r2 with
            | none => none
            | some (ps, rest) => some ((name, form) :: ps, rest) := by
  conv_lhs => unfold decodePairs
  split
  · rename_i e heq
    simp only [heq]
  · rename_i name r1 heq
    simp only [heq]
    split
    · rename_i e2 heq2
      simp only [heq2]
    · rename_i form r2 heq2
      simp only [heq2]

theorem attrLoop_unfold (a : Nat) (i : Bool) (bs : Bytes) (tag : Nat) (acc : List Nat) :
    attrLoop a i bs tag acc =
      match read_uleb128 bs with
      | .error e => .error e
      | .ok (name, r1) =>
        match read_uleb128 r1 with
        | .error e => .error e
        | .ok (form, r2) =>
          if name = 0 ∧ form = 0 then .ok (acc, tag, r2)
          else match processPair a i name form tag acc with
            | .error e => .error e
            | .ok (acc', tag') => attrLoop a i r2 tag' acc' := by
  conv_lhs => unfold attrLoop
  split
  · rename_i e heq
    simp only [heq]
  · rename_i name r1 heq
    simp only [heq]
    split
    · rename_i e2 heq2
      simp only [heq2]
    · rename_i form r2 heq2
      simp only [heq2]

theorem attrLoop_le : ∀ (n : Nat) (bs : Bytes), bs.length ≤ n →
    ∀ (a : Nat) (i : Bool) (tag : Nat) (acc cmds : List Nat) (tagF : Nat) (r : Bytes),
    attrLoop a i bs tag acc = .ok (cmds, tagF, r) → r.length ≤ bs.length := by
  intro n
  induction n with
  | zero =>
    intro bs hn a i tag acc cmds tagF r h
    unfold attrLoop at h
    split at h
    · simp at h
    · rename_i name r1 h1
      have := read_uleb128_shrinks h1
      omega
  | succ n ih =>
    intro bs hn a i tag acc cmds tagF r h
    unfold attrLoop at h
    split at h
    · simp at h
    · rename_i name r1 h1
      split at h
      · simp at h
      · rename_i form r2 h2
        have hs1 := read_uleb128_shrinks h1
        have hs2 := read_uleb128_shrinks h2
        split at h
        · simp at h
          obtain ⟨-, -, h3⟩ := h
          subst h3
          omega
        · split at h
          · simp at h
          · rename_i acc' tag' hp
            have := ih r2 (by omega) a i tag' acc' cmds tagF r h
            omega

theorem attrLoop_decodePairs : ∀ (n : Nat) (bs : Bytes), bs.length ≤ n →
    ∀ (a : Nat) (i : Bool) (tag : Nat) (acc cmds : List Nat) (tagF : Nat) (r : Bytes),
    attrLoop a i bs tag acc = .ok (cmds, tagF, r) →
    ∃ ps, decodePairs bs = some (ps, r) ∧ compilePairs a i ps tag acc = .ok (cmds, tagF) := by
  intro n
  induction n with
  | zero =>
    intro bs hn a i tag acc cmds tagF r h
    unfold attrLoop at h
    split at h
    · simp at h
    · rename_i name r1 h1
      have := read_uleb128_shrinks h1
      omega
  | succ n ih =>
    intro bs hn a i tag acc cmds tagF r h
    unfold attrLoop at h
    split at h
    · simp at h
    · rename_i name r1 h1
      split at h
      · simp at h
      · rename_i form r2 h2
        have hs1 := read_uleb128_shrinks h1
        have hs2 := read_uleb128_shrinks h2
        split at h
        · rename_i hterm
          simp at h
          obtain ⟨hc, ht, hr⟩ := h
          refine ⟨[], ?_, ?_⟩
          · rw [decodePairs_unfold]
            simp only [h1, h2, if_pos hterm]
            rw [hr]
          · simp [compilePairs, hc, ht]
        · rename_i hterm
          split at h
          · simp at h
          · rename_i acc' tag' hp
            obtain ⟨ps, hdec, hcomp⟩ := ih r2 (by omega) a i tag' acc' cmds tagF r h
            refine ⟨(name, form) :: ps, ?_, ?_⟩
            · rw [decodePairs_unfold]
              simp only [h1, h2, if_neg hterm, hdec]
            · simp only [compilePairs, hp]
              exact hcomp

theorem decodePairs_attrLoop : ∀ (n : Nat) (bs : Bytes), bs.length ≤ n →
    ∀ (a : Nat) (i : Bool) (tag : Nat) (acc : List Nat) (ps : List (Nat × Nat)) (r : Bytes)
      (cmds : List Nat) (tagF : Nat),
    decodePairs bs = some (ps, r) →
    compilePairs a i ps tag acc = .ok (cmds, tagF) →
    attrLoop a i bs tag acc = .ok (cmds, tagF, r) := by
  intro n
  induction n with
  | zero =>
    intro bs hn a i tag acc ps r cmds tagF hdec hcomp
    unfold decodePairs at hdec
    split at hdec
    · simp at hdec
    · rename_i name r1 h1
      have := read_uleb128_shrinks h1
      omega
  | succ n ih =>
    intro bs hn a i tag acc ps r cmds tagF hdec hcomp
    unfold decodePairs at hdec
    split at hdec
    · simp at hdec
    · rename_i name r1 h1
      split at hdec
      · simp at hdec
      · rename_i form r2 h2
        have hs1 := read_uleb128_shrinks h1
        have hs2 := read_uleb128_shrinks h2
        rw [attrLoop_unfold]
        simp only [h1, h2]
        split at hdec
        · rename_i hterm
          simp at hdec
          obtain ⟨hps, hr⟩ := hdec
          rw [if_pos hterm]
          rw [hps] at hcomp
          simp only [compilePairs] at hcomp
          simp at hcomp
          rw [hcomp.1, hcomp.2, hr]
        · rename_i hterm
          rw [if_neg hterm]
          split at hdec
          · simp at hdec
          · rename_i ps' rest' hdec'
            simp at hdec
            obtain ⟨hps, hr⟩ := hdec
            rw [← hps] at hcomp
            simp only [compilePairs] at hcomp
            cases hp : processPair a i name form tag acc with
            | error e =>
              simp only [hp] at hcomp
              simp at hcomp
            | ok p =>
              obtain ⟨acc', tag'⟩ := p
              simp only [hp] at hcomp
              simp only [hp]
              rw [hr] at hdec'
              exact ih r2 (by omega) a i tag' acc' ps' r cmds tagF hdec' hcomp

theorem read_u8_shrinks {bs : Bytes} {v : Nat} {r : Bytes}
    (h : read_u8 bs = .ok (v, r)) : r.length < bs.length := by
  cases bs with
  | nil => simp [read_u8] at h
  | cons b rest =>
    simp [read_u8] at h
    rw [← h.2]
    simp

/-- `read_abbrev_decl`: read the ULEB128 abbreviation code (0 terminates the
table, a non-sequential code is `NotImplementedError`), the tag (filtered
against the seven indexed tags), the children byte, then compile the
attribute pairs; the returned buffer is the compiled commands followed by the
0 terminator, the filtered tag byte and the children byte. -/
def read_abbrev_decl (bs : Bytes) (numDecls : Nat) (addressSize : Nat) (is64 : Bool) :
    Except Err (Option AbbrevDecl × Bytes) :=
  match read_uleb128 bs with
  | .error e => .error e
  | .ok (code, r1) =>
    if code = 0 then .ok (none, r1)
    else if code ≠ numDecls + 1 then .error .notImplemented
    else
      match read_uleb128 r1 with
      | .error e => .error e
      | .ok (tagD, r2) =>
        let tag := if tagD = DW_TAG_base_type ∨ tagD = DW_TAG_class_type ∨
            tagD = DW_TAG_enumeration_type ∨ tagD = DW_TAG_structure_type ∨
            tagD = DW_TAG_typedef ∨ tagD = DW_TAG_union_type ∨ tagD = DW_TAG_variable
          then tagD else 0
        match read_u8 r2 with
        | .error e => .error e
        | .ok (children, r3) =>
          match attrLoop addressSize is64 r3 tag [] with
          | .error e => .error e
          | .ok (cmds, tagF, r4) =>
            .ok (some ⟨cmds ++ [0, tagF % 256, children]⟩, r4)

theorem read_abbrev_decl_shrinks {bs : Bytes} {n a : Nat} {i : Bool} {d : AbbrevDecl}
    {r : Bytes} (h : read_abbrev_decl bs n a i = .ok (some d, r)) :
    r.length < bs.length := by
  unfold read_abbrev_decl at h
  cases h1 : read_uleb128 bs with
  | error e =>
    simp only [h1] at h
    exact absurd h (by simp)
  | ok p =>
    obtain ⟨code, r1⟩ := p
    simp only [h1] at h
    have hs1 := read_uleb128_shrinks h1
    split at h
    · simp at h
    · split at h
      · simp at h
      · cases h2 : read_uleb128 r1 with
        | error e =>
    simp only [h2] at h
    exact absurd h (by simp)
        | ok q =>
          obtain ⟨tagD, r2⟩ := q
          simp only [h2] at h
          have hs2 := read_uleb128_shrinks h2
          cases h3 : read_u8 r2 with
          | error e =>
    simp only [h3] at h
    exact absurd h (by simp)
          | ok u =>
            obtain ⟨children, r3⟩ := u
            simp only [h3] at h
            have hs3 := read_u8_shrinks h3
            split at h
            · exact absurd h (by simp)
            · rename_i cmds tagF r4 h4
              have hs4 := attrLoop_le r3.length r3 (by omega) a i _ [] cmds tagF r4 h4
              simp at h
              rw [← h.2]
              omega

/-- The loop of `read_abbrev_table`: repeatedly `read_abbrev_decl`, passing
the current number of declarations and storing each accepted abbreviation at
the next dense index, until the 0 code ends the table. -/
def read_abbrev_table_go (addressSize : Nat) (is64 : Bool) (bs : Bytes)
    (acc : List AbbrevDecl) : Except Err (List AbbrevDecl) :=
  match hd : read_abbrev_decl bs acc.length addressSize is64 with
  | .error e => .error e
  | .ok (none, _) => .ok acc
  | .ok (some d, r) => read_abbrev_table_go addressSize is64 r (acc ++ [d])
termination_by bs.length
decreasing_by
  exact read_abbrev_decl_shrinks hd

/-- `read_abbrev_table` at the start of a CU's abbreviation table. -/
def read_abbrev_table (bs : Bytes) (addressSize : Nat) (is64 : Bool) :
    Except Err (List AbbrevDecl) :=
  read_abbrev_table_go addressSize is64 bs []

theorem read_abbrev_table_go_unfold (addressSize : Nat) (is64 : Bool) (bs : Bytes)
    (acc : List AbbrevDecl) :
    read_abbrev_table_go addressSize is64 bs acc =
      match read_abbrev_decl bs acc.length addressSize is64 with
      | .error e => .error e
      | .ok (none, _) => .ok acc
      | .ok (some d, r) => read_abbrev_table_go addressSize is64 r (acc ++ [d]) := by
  conv_lhs => unfold read_abbrev_table_go
  split <;> rename_i heq <;> simp only [heq] <;> rfl

/-- Claim C8: a ULEB128 abbreviation code of 0 ends the table successfully; a
nonzero code is accepted only when it equals the number of abbreviations read
so far plus one, any other nonzero code failing with `NotImplementedError`;
and the table loop passes the current count as the expected predecessor and
appends each accepted abbreviation at dense index `count` = `code - 1`. -/
theorem abbrev_code_sequencing :
    (∀ (bs : Bytes) (n a : Nat) (i : Bool) (r : Bytes),
      read_uleb128 bs = .ok (0, r) → read_abbrev_decl bs n a i = .ok (none, r))
    ∧ (∀ (bs : Bytes) (n a : Nat) (i : Bool) (code : Nat) (r : Bytes),
      read_uleb128 bs = .ok (code, r) → code ≠ 0 → code ≠ n + 1 →
      read_abbrev_decl bs n a i = .error .notImplemented)
    ∧ (∀ (bs : Bytes) (n a : Nat) (i : Bool) (d : AbbrevDecl) (r : Bytes),
      read_abbrev_decl bs n a i = .ok (some d, r) →
      ∃ r1, read_uleb128 bs = .ok (n + 1, r1))
    ∧ (∀ (a : Nat) (i : Bool) (bs : Bytes) (acc : List AbbrevDecl),
      read_abbrev_table_go a i bs acc =
        match read_abbrev_decl bs acc.length a i with
        | .error e => .error e
        | .ok (none, _) => .ok acc
        | .ok (some d, r) => read_abbrev_table_go a i r (acc ++ [d])) := by
  refine ⟨?_, ?_, ?_, read_abbrev_table_go_unfold⟩
  · intro bs n a i r h
    unfold read_abbrev_decl
    simp only [h]
    rfl
  · intro bs n a i code r h hc0 hcn
    unfold read_abbrev_decl
    simp only [h]
    rw [if_neg hc0, if_pos hcn]
  · intro bs n a i d r h
    unfold read_abbrev_decl at h
    cases h1 : read_uleb128 bs with
    | error e =>
    simp only [h1] at h
    exact absurd h (by simp)
    | ok p =>
      obtain ⟨code, r1⟩ := p
      simp only [h1] at h
      split at h
      · simp at h
      · split at h
        · simp at h
        · rename_i hc0 hcn
          have : code = n + 1 := by omega
          subst this
          exact ⟨r1, rfl⟩

/-- Witness for C8: code 0 ends a table; code 5 with zero abbreviations read
so far is rejected as non-sequential. -/
theorem abbrev_code_sequencing_witness :
    read_abbrev_decl [0, 9] 0 8 false = .ok (none, [9])
    ∧ read_abbrev_decl [5, 9] 0 8 false = .error .notImplemented := by
  constructor
  · exact abbrev_code_sequencing.1 [0, 9] 0 8 false [9] rfl
  · exact abbrev_code_sequencing.2.1 [5, 9] 0 8 false 5 [9] rfl (by decide) (by decide)

/-- The fixed skip size the form switch of `read_abbrev_decl` emits for a
fixed-length form (`none` for variable-length and special forms). -/
def fixedSize (addressSize : Nat) (is64 : Bool) (form : Nat) : Option Nat :=
  if form = DW_FORM_addr then some (addressSize % 256)
  else if form = DW_FORM_data1 ∨ form = DW_FORM_ref1 ∨ form = DW_FORM_flag then some 1
  else if form = DW_FORM_data2 ∨ form = DW_FORM_ref2 then some 2
  else if form = DW_FORM_data4 ∨ form = DW_FORM_ref4 then some 4
  else if form = DW_FORM_data8 ∨ form = DW_FORM_ref8 ∨ form = DW_FORM_ref_sig8 then some 8
  else if form = DW_FORM_ref_addr ∨ form = DW_FORM_sec_offset ∨ form = DW_FORM_strp then
    some (if is64 then 8 else 4)
  else none

/-- The sum of the fixed skip sizes of a pair list. -/
def fixedSum (addressSize : Nat) (is64 : Bool) (ps : List (Nat × Nat)) : Nat :=
  (ps.map (fun p => (fixedSize addressSize is64 p.2).getD 0)).sum

theorem processPair_fixed {a : Nat} {i : Bool} {name form tag : Nat} {acc : List Nat} {sz : Nat}
    (hn1 : name ≠ DW_AT_sibling) (hn3 : name ≠ DW_AT_name) (hn60 : name ≠ DW_AT_declaration)
    (hf : fixedSize a i form = some sz) :
    processPair a i name form tag acc = .ok (emitFixed acc sz, tag) := by
  unfold fixedSize at hf
  by_cases g1 : form = DW_FORM_addr
  · rw [if_pos g1] at hf
    simp at hf
    subst hf
    subst g1
    simp [processPair, hn1, hn3, hn60, DW_FORM_addr, DW_FORM_ref1, DW_FORM_ref2, DW_FORM_ref4,
      DW_FORM_ref8, DW_FORM_ref_udata, DW_FORM_strp, DW_FORM_string]
  · rw [if_neg g1] at hf
    by_cases g2 : form = DW_FORM_data1 ∨ form = DW_FORM_ref1 ∨ form = DW_FORM_flag
    · rw [if_pos g2] at hf
      simp at hf
      subst hf
      rcases g2 with g | g | g <;> subst g <;>
        simp [processPair, hn1, hn3, hn60, DW_FORM_addr, DW_FORM_data1, DW_FORM_flag,
          DW_FORM_ref1, DW_FORM_ref2, DW_FORM_ref4, DW_FORM_ref8, DW_FORM_ref_udata,
          DW_FORM_strp, DW_FORM_string]
    · rw [if_neg g2] at hf
      by_cases g3 : form = DW_FORM_data2 ∨ form = DW_FORM_ref2
      · rw [if_pos g3] at hf
        simp at hf
        subst hf
        rcases g3 with g | g <;> subst g <;>
          simp [processPair, hn1, hn3, hn60, DW_FORM_addr, DW_FORM_data1, DW_FORM_flag,
            DW_FORM_data2, DW_FORM_ref1, DW_FORM_ref2, DW_FORM_ref4, DW_FORM_ref8,
            DW_FORM_ref_udata, DW_FORM_strp, DW_FORM_string]
      · rw [if_neg g3] at hf
        by_cases g4 : form = DW_FORM_data4 ∨ form = DW_FORM_ref4
        · rw [if_pos g4] at hf
          simp at hf
          subst hf
          rcases g4 with g | g <;> subst g <;>
            simp [processPair, hn1, hn3, hn60, DW_FORM_addr, DW_FORM_data1, DW_FORM_flag,
              DW_FORM_data2, DW_FORM_data4, DW_FORM_ref1, DW_FORM_ref2, DW_FORM_ref4,
              DW_FORM_ref8, DW_FORM_ref_udata, DW_FORM_strp, DW_FORM_string]
        · rw [if_neg g4] at hf
          by_cases g5 : form = DW_FORM_data8 ∨ form = DW_FORM_ref8 ∨ form = DW_FORM_ref_sig8
          · rw [if_pos g5] at hf
            simp at hf
            subst hf
            rcases g5 with g | g | g <;> subst g <;>
              simp [processPair, hn1, hn3, hn60, DW_FORM_addr, DW_FORM_data1, DW_FORM_flag,
                DW_FORM_data2, DW_FORM_data4, DW_FORM_data8, DW_FORM_ref_sig8, DW_FORM_ref1,
                DW_FORM_ref2, DW_FORM_ref4, DW_FORM_ref8, DW_FORM_ref_udata, DW_FORM_strp,
                DW_FORM_string]
          · rw [if_neg g5] at hf
            by_cases g6 : form = DW_FORM_ref_addr ∨ form = DW_FORM_sec_offset ∨
                form = DW_FORM_strp
            · rw [if_pos g6] at hf
              simp at hf
              subst hf
              rcases g6 with g | g | g <;> subst g <;> cases i <;>
                simp [processPair, hn1, hn3, hn60, DW_FORM_addr, DW_FORM_data1, DW_FORM_flag,
                  DW_FORM_data2, DW_FORM_data4, DW_FORM_data8, DW_FORM_ref_sig8,
                  DW_FORM_ref_addr, DW_FORM_sec_offset, DW_FORM_block1, DW_FORM_block2,
                  DW_FORM_block4, DW_FORM_exprloc, DW_FORM_sdata, DW_FORM_udata, DW_FORM_ref1,
                  DW_FORM_ref2, DW_FORM_ref4, DW_FORM_ref8, DW_FORM_ref_udata, DW_FORM_strp,
                  DW_FORM_string]
            · rw [if_neg g6] at hf
              simp at hf

theorem processPair_leb {a : Nat} {i : Bool} {name form tag : Nat} {acc : List Nat}
    (hn1 : name ≠ DW_AT_sibling) (hn3 : name ≠ DW_AT_name) (hn60 : name ≠ DW_AT_declaration)
    (hf : form = DW_FORM_sdata ∨ form = DW_FORM_udata ∨ form = DW_FORM_ref_udata) :
    processPair a i name form tag acc = .ok (acc ++ [ATTRIB_LEB128], tag) := by
  rcases hf with g | g | g <;> subst g <;>
    simp [processPair, hn1, hn3, hn60, DW_FORM_addr, DW_FORM_data1, DW_FORM_flag,
      DW_FORM_data2, DW_FORM_data4, DW_FORM_data8, DW_FORM_ref_sig8, DW_FORM_sdata,
      DW_FORM_udata, DW_FORM_block1, DW_FORM_block2, DW_FORM_block4, DW_FORM_exprloc,
      DW_FORM_ref1, DW_FORM_ref2, DW_FORM_ref4, DW_FORM_ref8, DW_FORM_ref_udata,
      DW_FORM_strp, DW_FORM_string]

theorem emitFixed_merge (cs : List Nat) (M N : Nat) (hM : M < 243) (hN : N < 243) :
    emitFixed (cs ++ [M]) N =
      if M + N < 243 then cs ++ [M + N] else cs ++ [242, M + N - 242] := by
  unfold emitFixed
  have hlast : (cs ++ [M]).getLast? = some M := by simp
  simp only [hlast]
  rw [if_pos (show M < ATTRIB_MIN_CMD from hM)]
  by_cases hs : M + N < 243
  · rw [if_pos (show M + N < ATTRIB_MIN_CMD from hs), if_pos hs]
    simp
  · rw [if_neg (show ¬ M + N < ATTRIB_MIN_CMD from hs), if_neg hs]
    have h1 : ATTRIB_MIN_CMD - 1 = 242 := rfl
    have h2 : M + N - ATTRIB_MIN_CMD + 1 = M + N - 242 := by
      unfold ATTRIB_MIN_CMD
      omega
    rw [h1, h2]
    simp

theorem compilePairs_fixed_run : ∀ (ps : List (Nat × Nat)) (a : Nat) (i : Bool) (tag s : Nat)
    (nL fL : Nat),
    (∀ p ∈ ps, p.1 ≠ DW_AT_sibling ∧ p.1 ≠ DW_AT_name ∧ p.1 ≠ DW_AT_declaration ∧
      (fixedSize a i p.2).isSome) →
    s + fixedSum a i ps < 243 →
    nL ≠ DW_AT_sibling → nL ≠ DW_AT_name → nL ≠ DW_AT_declaration →
    (fL = DW_FORM_sdata ∨ fL = DW_FORM_udata ∨ fL = DW_FORM_ref_udata) →
    compilePairs a i (ps ++ [(nL, fL)]) tag [s] =
      .ok ([s + fixedSum a i ps, ATTRIB_LEB128], tag) := by
  intro ps
  induction ps with
  | nil =>
    intro a i tag s nL fL _ hsum hn1 hn3 hn60 hfL
    simp only [List.nil_append, fixedSum, List.map_nil, List.sum_nil, Nat.add_zero]
    simp only [compilePairs, processPair_leb hn1 hn3 hn60 hfL]
    rfl
  | cons p rest ih =>
    intro a i tag s nL fL hfixed hsum hn1 hn3 hn60 hfL
    obtain ⟨hp1, hp3, hp60, hpsz⟩ := hfixed p (List.mem_cons_self _ _)
    obtain ⟨sz, hsz⟩ := Option.isSome_iff_exists.mp hpsz
    obtain ⟨pn, pf⟩ := p
    have hsum' : fixedSum a i ((pn, pf) :: rest) = sz + fixedSum a i rest := by
      simp only [fixedSum, List.map_cons, List.sum_cons]
      simp at hsz
      rw [hsz]
      rfl
    rw [hsum'] at hsum
    simp only [List.cons_append, compilePairs]
    simp only [processPair_fixed hp1 hp3 hp60 hsz]
    have hemit : emitFixed [s] sz = [s + sz] := by
      have : ([] : List Nat) ++ [s] = [s] := rfl
      rw [← this, emitFixed_merge [] s sz (by omega) (by omega)]
      rw [if_pos (by omega)]
      rfl
    rw [hemit]
    have := ih a i tag (s + sz) nL fL
      (fun q hq => hfixed q (List.mem_cons_of_mem _ hq)) (by omega) hn1 hn3 hn60 hfL
    rw [List.append_eq, this, hsum', Nat.add_assoc]

/-- Claim C6: a fixed-length skip emitted right after an existing literal
skip `M < 243` is merged — replaced by `M + N` when that is still a literal,
otherwise the previous byte saturates to 242 and `M + N - 242` is emitted as
a new literal; consequently an abbreviation whose attribute pairs are plain
fixed-size skips summing to `S < 243` followed by one LEB128-form attribute
compiles to exactly the two bytes `[S, ATTRIB_LEB128]` before the
terminator. -/
theorem skip_coalescing :
    (∀ (cs : List Nat) (M N : Nat), M < 243 → N < 243 →
      emitFixed (cs ++ [M]) N =
        if M + N < 243 then cs ++ [M + N] else cs ++ [242, M + N - 242])
    ∧ (∀ (a : Nat) (i : Bool) (bs : Bytes) (tag : Nat) (p0 : Nat × Nat)
        (ps : List (Nat × Nat)) (nL fL : Nat) (r : Bytes),
      decodePairs bs = some ((p0 :: ps) ++ [(nL, fL)], r) →
      (∀ p ∈ p0 :: ps, p.1 ≠ DW_AT_sibling ∧ p.1 ≠ DW_AT_name ∧ p.1 ≠ DW_AT_declaration ∧
        (fixedSize a i p.2).isSome) →
      fixedSum a i (p0 :: ps) < 243 →
      nL ≠ DW_AT_sibling → nL ≠ DW_AT_name → nL ≠ DW_AT_declaration →
      (fL = DW_FORM_sdata ∨ fL = DW_FORM_udata ∨ fL = DW_FORM_ref_udata) →
      attrLoop a i bs tag [] = .ok ([fixedSum a i (p0 :: ps), ATTRIB_LEB128], tag, r)) := by
  refine ⟨emitFixed_merge, ?_⟩
  intro a i bs tag p0 ps nL fL r hdec hfixed hsum hn1 hn3 hn60 hfL
  apply decodePairs_attrLoop bs.length bs (le_refl _) a i tag [] _ r _ _ hdec
  obtain ⟨pn, pf⟩ := p0
  obtain ⟨hp1, hp3, hp60, hpsz⟩ := hfixed (pn, pf) (List.mem_cons_self _ _)
  obtain ⟨sz, hsz⟩ := Option.isSome_iff_exists.mp hpsz
  have hsum0 : fixedSum a i ((pn, pf) :: ps) = sz + fixedSum a i ps := by
    simp only [fixedSum, List.map_cons, List.sum_cons]
    simp at hsz
    rw [hsz]
    rfl
  simp only [List.cons_append, compilePairs]
  simp only [processPair_fixed hp1 hp3 hp60 hsz]
  have hemit : emitFixed [] sz = [sz] := rfl
  rw [hemit]
  rw [hsum0] at hsum ⊢
  have := compilePairs_fixed_run ps a i tag sz nL fL
    (fun q hq => hfixed q (List.mem_cons_of_mem _ hq)) (by omega) hn1 hn3 hn60 hfL
  rw [List.append_eq, this]

/-- Witness for C6: ten fixed-size skips (five `data4`, five `data8`, summing
to 60) followed by a `udata` attribute compile to exactly `[60, 247]`. -/
theorem skip_coalescing_witness :
    (emitFixed ([5] ++ [100]) 200 = if 100 + 200 < 243 then [5] ++ [100 + 200]
      else [5] ++ [242, 100 + 200 - 242])
    ∧ decodePairs [9, 6, 9, 6, 9, 6, 9, 6, 9, 6, 9, 7, 9, 7, 9, 7, 9, 7, 9, 7, 9, 15, 0, 0, 77]
        = some ([(9, 6), (9, 6), (9, 6), (9, 6), (9, 6), (9, 7), (9, 7), (9, 7), (9, 7), (9, 7),
            (9, 15)], [77])
    ∧ attrLoop 8 false [9, 6, 9, 6, 9, 6, 9, 6, 9, 6, 9, 7, 9, 7, 9, 7, 9, 7, 9, 7, 9, 15, 0, 0, 77]
        19 [] = .ok ([60, 247], 19, [77]) := by
  refine ⟨skip_coalescing.1 [5] 100 200 (by decide) (by decide),
    by simp [decodePairs_unfold, read_uleb128, read_uleb128_go], ?_⟩
  have h := skip_coalescing.2 8 false
    [9, 6, 9, 6, 9, 6, 9, 6, 9, 6, 9, 7, 9, 7, 9, 7, 9, 7, 9, 7, 9, 15, 0, 0, 77] 19 (9, 6)
    [(9, 6), (9, 6), (9, 6), (9, 6), (9, 7), (9, 7), (9, 7), (9, 7), (9, 7)] 9 15 [77]
    (by simp [decodePairs_unfold, read_uleb128, read_uleb128_go]) (by decide) (by decide)
    (by decide) (by decide) (by decide) (by decide)
  simpa using h

theorem processPair_chain_tag {a : Nat} {i : Bool} {name form tag : Nat}
    {acc acc' : List Nat} {tag' : Nat}
    (hc : ¬(name = DW_AT_sibling ∧ (form = DW_FORM_ref1 ∨ form = DW_FORM_ref2 ∨
      form = DW_FORM_ref4 ∨ form = DW_FORM_ref8 ∨ form = DW_FORM_ref_udata)))
    (hc2 : ¬(name = DW_AT_name ∧ tag ≠ 0 ∧ (form = DW_FORM_strp ∨ form = DW_FORM_string)))
    (h : processPair a i name form tag acc = .ok (acc', tag')) :
    tag' = (if name = DW_AT_declaration ∧ tag ≠ DW_TAG_variable then 0 else tag) := by
  rw [processPair, if_neg hc, if_neg hc2] at h
  by_cases f0 : form = DW_FORM_addr
  · rw [if_pos f0] at h
    simp only [Except.ok.injEq, Prod.mk.injEq] at h
    exact h.2.symm
  · rw [if_neg f0] at h
    by_cases f1 : form = DW_FORM_data1 ∨ form = DW_FORM_ref1 ∨ form = DW_FORM_flag
    · rw [if_pos f1] at h
      simp only [Except.ok.injEq, Prod.mk.injEq] at h
      exact h.2.symm
    · rw [if_neg f1] at h
      by_cases f2 : form = DW_FORM_data2 ∨ form = DW_FORM_ref2
      · rw [if_pos f2] at h
        simp only [Except.ok.injEq, Prod.mk.injEq] at h
        exact h.2.symm
      · rw [if_neg f2] at h
        by_cases f3 : form = DW_FORM_data4 ∨ form = DW_FORM_ref4
        · rw [if_pos f3] at h
          simp only [Except.ok.injEq, Prod.mk.injEq] at h
          exact h.2.symm
        · rw [if_neg f3] at h
          by_cases f4 : form = DW_FORM_data8 ∨ form = DW_FORM_ref8 ∨ form = DW_FORM_ref_sig8
          · rw [if_pos f4] at h
            simp only [Except.ok.injEq, Prod.mk.injEq] at h
            exact h.2.symm
          · rw [if_neg f4] at h
            by_cases f5 : form = DW_FORM_block1
            · rw [if_pos f5] at h
              simp only [Except.ok.injEq, Prod.mk.injEq] at h
              exact h.2.symm
            · rw [if_neg f5] at h
              by_cases f6 : form = DW_FORM_block2
              · rw [if_pos f6] at h
                simp only [Except.ok.injEq, Prod.mk.injEq] at h
                exact h.2.symm
              · rw [if_neg f6] at h
                by_cases f7 : form = DW_FORM_block4
                · rw [if_pos f7] at h
                  simp only [Except.ok.injEq, Prod.mk.injEq] at h
                  exact h.2.symm
                · rw [if_neg f7] at h
                  by_cases f8 : form = DW_FORM_exprloc
                  · rw [if_pos f8] at h
                    simp only [Except.ok.injEq, Prod.mk.injEq] at h
                    exact h.2.symm
                  · rw [if_neg f8] at h
                    by_cases f9 : form = DW_FORM_sdata ∨ form = DW_FORM_udata ∨ form = DW_FORM_ref_udata
                    · rw [if_pos f9] at h
                      simp only [Except.ok.injEq, Prod.mk.injEq] at h
                      exact h.2.symm
                    · rw [if_neg f9] at h
                      by_cases f10 : form = DW_FORM_ref_addr ∨ form = DW_FORM_sec_offset ∨ form = DW_FORM_strp
                      · rw [if_pos f10] at h
                        simp only [Except.ok.injEq, Prod.mk.injEq] at h
                        exact h.2.symm
                      · rw [if_neg f10] at h
                        by_cases f11 : form = DW_FORM_string
                        · rw [if_pos f11] at h
                          simp only [Except.ok.injEq, Prod.mk.injEq] at h
                          exact h.2.symm
                        · rw [if_neg f11] at h
                          by_cases f12 : form = DW_FORM_flag_present
                          · rw [if_pos f12] at h
                            simp only [Except.ok.injEq, Prod.mk.injEq] at h
                            exact h.2.symm
                          · rw [if_neg f12] at h
                            by_cases f13 : form = DW_FORM_indirect
                            · rw [if_pos f13] at h
                              exact absurd h (by simp)
                            · rw [if_neg f13] at h
                              exact absurd h (by simp)

theorem processPair_tag_rel {a : Nat} {i : Bool} {name form tag : Nat} {acc acc' : List Nat}
    {tag' : Nat} (h : processPair a i name form tag acc = .ok (acc', tag')) :
    ((name = DW_AT_declaration ∧ tag ≠ DW_TAG_variable) → tag' = 0) ∧
    (¬(name = DW_AT_declaration ∧ tag ≠ DW_TAG_variable) → tag' = tag) := by
  by_cases hc : name = DW_AT_sibling ∧ (form = DW_FORM_ref1 ∨ form = DW_FORM_ref2 ∨
      form = DW_FORM_ref4 ∨ form = DW_FORM_ref8 ∨ form = DW_FORM_ref_udata)
  · rw [processPair, if_pos hc] at h
    simp only [Except.ok.injEq, Prod.mk.injEq] at h
    constructor
    · rintro ⟨hd, _⟩
      obtain ⟨hname, _⟩ := hc
      rw [hd] at hname
      exact absurd hname (by decide)
    · intro _
      exact h.2.symm
  · by_cases hc2 : name = DW_AT_name ∧ tag ≠ 0 ∧ (form = DW_FORM_strp ∨ form = DW_FORM_string)
    · rw [processPair, if_neg hc, if_pos hc2] at h
      simp only [Except.ok.injEq, Prod.mk.injEq] at h
      constructor
      · rintro ⟨hd, _⟩
        obtain ⟨hname, _⟩ := hc2
        rw [hd] at hname
        exact absurd hname (by decide)
      · intro _
        exact h.2.symm
    · have hch := processPair_chain_tag hc hc2 h
      constructor
      · intro hd
        rw [hch, if_pos hd]
      · intro hd
        rw [hch, if_neg hd]

theorem compilePairs_tag_filter : ∀ (ps : List (Nat × Nat)) (a : Nat) (i : Bool) (tag : Nat)
    (acc cmds : List Nat) (tagF : Nat),
    compilePairs a i ps tag acc = .ok (cmds, tagF) → tagF ≠ 0 →
    tag ≠ 0 ∧ (tag = DW_TAG_variable ∨ ∀ p ∈ ps, p.1 ≠ DW_AT_declaration) := by
  intro ps
  induction ps with
  | nil =>
    intro a i tag acc cmds tagF h hne
    simp only [compilePairs] at h
    simp at h
    refine ⟨by omega, Or.inr (by simp)⟩
  | cons p rest ih =>
    intro a i tag acc cmds tagF h hne
    obtain ⟨pn, pf⟩ := p
    simp only [compilePairs] at h
    cases hp : processPair a i pn pf tag acc with
    | error e =>
      simp only [hp] at h
      exact absurd h (by simp)
    | ok q =>
      obtain ⟨acc', tag'⟩ := q
      simp only [hp] at h
      obtain ⟨htag'ne, hrest⟩ := ih a i tag' acc' cmds tagF h hne
      obtain ⟨hrel0, hrel1⟩ := processPair_tag_rel hp
      by_cases hd : pn = DW_AT_declaration ∧ tag ≠ DW_TAG_variable
      · exact absurd (hrel0 hd) htag'ne
      · have htag' : tag' = tag := hrel1 hd
        subst htag'
        refine ⟨htag'ne, ?_⟩
        by_cases hv : tag' = DW_TAG_variable
        · exact Or.inl hv
        · right
          intro q hq
          rcases List.mem_cons.mp hq with heq | hmem
          · subst heq
            simp only [ne_eq]
            intro hc
            exact hd ⟨hc, hv⟩
          · rcases hrest with hvv | hnd
            · exact absurd hvv hv
            · exact hnd q hmem

theorem read_abbrev_decl_tag_filter :
    ∀ (bs : Bytes) (n a : Nat) (i : Bool) (d : AbbrevDecl) (r : Bytes),
    read_abbrev_decl bs n a i = .ok (some d, r) →
    ∃ code r1 tagD r2 children r3 ps cmds tagF,
      read_uleb128 bs = .ok (code, r1) ∧
      read_uleb128 r1 = .ok (tagD, r2) ∧
      read_u8 r2 = .ok (children, r3) ∧
      decodePairs r3 = some (ps, r) ∧
      d.cmds = cmds ++ [0, tagF % 256, children] ∧
      (tagF % 256 ≠ 0 →
        (tagD = DW_TAG_base_type ∨ tagD = DW_TAG_class_type ∨ tagD = DW_TAG_enumeration_type ∨
         tagD = DW_TAG_structure_type ∨ tagD = DW_TAG_typedef ∨ tagD = DW_TAG_union_type ∨
         tagD = DW_TAG_variable) ∧
        (tagD = DW_TAG_variable ∨ ∀ p ∈ ps, p.1 ≠ DW_AT_declaration)) := by
  intro bs n a i d r h
  unfold read_abbrev_decl at h
  cases h1 : read_uleb128 bs with
  | error e =>
    simp only [h1] at h
    exact absurd h (by simp)
  | ok p =>
    obtain ⟨code, r1⟩ := p
    simp only [h1] at h
    split at h
    · simp at h
    · split at h
      · simp at h
      · cases h2 : read_uleb128 r1 with
        | error e =>
          simp only [h2] at h
          exact absurd h (by simp)
        | ok q =>
          obtain ⟨tagD, r2⟩ := q
          simp only [h2] at h
          cases h3 : read_u8 r2 with
          | error e =>
            simp only [h3] at h
            exact absurd h (by simp)
          | ok u =>
            obtain ⟨children, r3⟩ := u
            simp only [h3] at h
            split at h
            · exact absurd h (by simp)
            · rename_i cmds tagF r4 h4
              simp only [Except.ok.injEq, Option.some.injEq, Prod.mk.injEq] at h
              obtain ⟨hd, hr⟩ := h
              obtain ⟨ps, hdec, hcomp⟩ := attrLoop_decodePairs r3.length r3 (le_refl _)
                a i _ [] cmds tagF r4 h4
              subst hr
              refine ⟨code, r1, tagD, r2, children, r3, ps, cmds, tagF,
                rfl, h2, h3, hdec, by rw [← hd], ?_⟩
              intro hne
              have htagF : tagF ≠ 0 := by
                intro hc
                rw [hc] at hne
                simp at hne
              have := compilePairs_tag_filter ps a i _ [] cmds tagF hcomp htagF
              obtain ⟨hinit, hdisj⟩ := this
              split at hinit
              · rename_i hset
                split at hdisj
                · exact ⟨hset, hdisj⟩
                · exact ⟨hset, hdisj⟩
              · exact absurd rfl hinit

/-- The context `index_cu` works in: the compilation unit's byte slice
(`cu->ptr` up to `end = &cu->ptr[(is_64_bit ? 12 : 4) + unit_length]`), the
`.debug_str` section contents, the CU's dense abbreviation vector, the
64-bit flag and an abstract identity for the `cu` pointer stored in hash
entries. -/
structure CuCtx where
  cuBytes : Bytes
  str : Bytes
  decls : List AbbrevDecl
  is64 : Bool
  cuId : Nat

/-- The `while ((cmd = *cmdp++))` switch of `index_cu`, walking a compiled
command buffer over the remaining DIE bytes. Carries the `name` and
`sibling` registers (both start NULL); returns the advanced input, the two
registers and the commands after the 0 terminator (from which the C reads
`tag = *cmdp++` and `children = *cmdp`). Skip overruns, out-of-section
sibling offsets (`in_bounds(cu->ptr, end, tmp)`) and out-of-section string
offsets (`in_bounds(debug_str_buffer, debug_str_end, tmp)`) are EOF, as in
the C. -/
def runCmds (ctx : CuCtx) : List Nat → Bytes → Option Bytes → Option Nat →
    Except Err (Bytes × Option Bytes × Option Nat × List Nat)
  | [], rest, nm, sib => .ok (rest, nm, sib, [])
  | c :: cs, rest, nm, sib =>
    if c % 256 = 0 then .ok (rest, nm, sib, cs)
    else if c % 256 = ATTRIB_BLOCK1 then
      match read_u8 rest with
      | .error e => .error e
      | .ok (skip, r) =>
        if skip ≤ r.length then runCmds ctx cs (r.drop skip) nm sib else .error .eof
    else if c % 256 = ATTRIB_BLOCK2 then
      match read_u16 rest with
      | .error e => .error e
      | .ok (skip, r) =>
        if skip ≤ r.length then runCmds ctx cs (r.drop skip) nm sib else .error .eof
    else if c % 256 = ATTRIB_BLOCK4 then
      match read_u32 rest with
      | .error e => .error e
      | .ok (skip, r) =>
        if skip ≤ r.length then runCmds ctx cs (r.drop skip) nm sib else .error .eof
    else if c % 256 = ATTRIB_EXPRLOC then
      match read_uleb128 rest with
      | .error e => .error e
      | .ok (skip, r) =>
        if skip ≤ r.length then runCmds ctx cs (r.drop skip) nm sib else .error .eof
    else if c % 256 = ATTRIB_LEB128 then
      match skip_leb128 rest with
      | .error e => .error e
      | .ok r => runCmds ctx cs r nm sib
    else if c % 256 = ATTRIB_NAME_STRING then
      match skip_cstring rest with
      | .error e => .error e
      | .ok r => runCmds ctx cs r (some (cstr rest)) sib
    else if c % 256 = ATTRIB_STRING then
      match skip_cstring rest with
      | .error e => .error e
      | .ok r => runCmds ctx cs r nm sib
    else if c % 256 = ATTRIB_SIBLING_REF1 then
      match read_u8 rest with
      | .error e => .error e
      | .ok (tmp, r) =>
        if tmp ≤ ctx.cuBytes.length then runCmds ctx cs r nm (some tmp) else .error .eof
    else if c % 256 = ATTRIB_SIBLING_REF2 then
      match read_u16 rest with
      | .error e => .error e
      | .ok (tmp, r) =>
        if tmp ≤ ctx.cuBytes.length then runCmds ctx cs r nm (some tmp) else .error .eof
    else if c % 256 = ATTRIB_SIBLING_REF4 then
      match read_u32 rest with
      | .error e => .error e
      | .ok (tmp, r) =>
        if tmp ≤ ctx.cuBytes.length then runCmds ctx cs r nm (some tmp) else .error .eof
    else if c % 256 = ATTRIB_SIBLING_REF8 then
      match read_u64 rest with
      | .error e => .error e
      | .ok (tmp, r) =>
        if tmp ≤ ctx.cuBytes.length then runCmds ctx cs r nm (some tmp) else .error .eof
    else if c % 256 = ATTRIB_SIBLING_REF_UDATA then
      match read_uleb128 rest with
      | .error e => .error e
      | .ok (tmp, r) =>
        if tmp ≤ ctx.cuBytes.length then runCmds ctx cs r nm (some tmp) else .error .eof
    else if c % 256 = ATTRIB_NAME_STRP then
      match (if ctx.is64 then read_u64 rest else read_u32 rest) with
      | .error e => .error e
      | .ok (tmp, r) =>
        if tmp ≤ ctx.str.length then runCmds ctx cs r (some (cstr (ctx.str.drop tmp))) sib
        else .error .eof
    else
      if c % 256 ≤ rest.length then runCmds ctx cs (rest.drop (c % 256)) nm sib
      else .error .eof

/-- The outcome of one iteration of the DIE loop of `index_cu`: `exit` the
loop (the `break` statements) with the current hash table, or continue with
a new input position, depth and table. `next` also records the entry handed
to `add_die_hash_entry` by this iteration, if any. -/
inductive StepOut where
  | exit (t : DieHash)
  | next (rest : Bytes) (depth : Nat) (t : DieHash) (ins : Option DieHashEntry)

/-- The insertion guard `if (depth == 1 && name && tag)` of `index_cu`
together with the arguments of the guarded `add_die_hash_entry` call:
`die_ptr` is the DIE's offset from `cu->ptr`. -/
def dieEntry (ctx : CuCtx) (rest : Bytes) (depth : Nat) (nm : Option Bytes)
    (after : List Nat) : Option DieHashEntry :=
  if depth = 1 ∧ nm ≠ none ∧ after.getD 0 0 % 256 ≠ 0 then
    some ⟨nm.getD [], after.getD 0 0 % 256, ctx.cuId, ctx.cuBytes.length - rest.length⟩
  else none

/-- One iteration of the `for (;;)` DIE loop of `index_cu`: read the
abbreviation code (0 pops a depth level, `unsigned int` arithmetic wrapping
at 0, and breaks when the decrement reaches 0), reject codes beyond the
dense vector, walk the compiled commands, perform the guarded hash
insertion, then descend — a nonzero `children` byte either jumps to the
recorded sibling (checked only against `[cu->ptr, end]`) at the same depth
or increments the depth, and `children == 0 && depth == 0` breaks. -/
def dieStep (ctx : CuCtx) (t : DieHash) (rest : Bytes) (depth : Nat) :
    Except Err StepOut :=
  match read_uleb128 rest with
  | .error e => .error e
  | .ok (code, r1) =>
    if code = 0 then
      if (depth + 4294967295) % 4294967296 = 0 then .ok (.exit t)
      else .ok (.next r1 ((depth + 4294967295) % 4294967296) t none)
    else if ctx.decls.length < code then .error (.dwarfFormat "unknown abbreviation code")
    else
      match runCmds ctx (ctx.decls.getD (code - 1) ⟨[]⟩).cmds r1 none none with
      | .error e => .error e
      | .ok (r2, nm, sib, after) =>
        match (match dieEntry ctx rest depth nm after with
               | some e => add_die_hash_entry t e
               | none => .ok t) with
        | .error e => .error e
        | .ok t' =>
          if after.getD 1 0 % 256 ≠ 0 then
            match sib with
            | some tmp => .ok (.next (ctx.cuBytes.drop tmp) depth t'
                (dieEntry ctx rest depth nm after))
            | none => .ok (.next r2 ((depth + 1) % 4294967296) t'
                (dieEntry ctx rest depth nm after))
          else if depth = 0 then .ok (.exit t')
          else .ok (.next r2 depth t' (dieEntry ctx rest depth nm after))

/-- The DIE loop of `index_cu` iterated, with an explicit iteration budget:
`none` means the budget ran out before the loop broke or failed. -/
def runIndexCu (ctx : CuCtx) : Nat → DieHash → Bytes → Nat → Option (Except Err DieHash)
  | 0, _, _, _ => none
  | fuel + 1, t, rest, depth =>
    match dieStep ctx t rest depth with
    | .error e => some (.error e)
    | .ok (.exit t') => some (.ok t')
    | .ok (.next r' d' t' _) => runIndexCu ctx fuel t' r' d'

/-- `index_cu`: the DIE loop started at `&cu->ptr[is_64_bit ? 23 : 11]` with
`depth = 0` and the given hash table. -/
def index_cu_run (ctx : CuCtx) (t : DieHash) (fuel : Nat) : Option (Except Err DieHash) :=
  runIndexCu ctx fuel t (ctx.cuBytes.drop (if ctx.is64 then 23 else 11)) 0

theorem addAux_error_noMemory : ∀ (fuel i : Nat) {t : DieHash} {e : DieHashEntry} {er : Err},
    addAux t e i fuel = .error er → er = .noMemory := by
  intro fuel
  induction fuel with
  | zero =>
    intro i t e er h
    simp only [addAux, Except.error.injEq] at h
    exact h.symm
  | succ n ih =>
    intro i t e er h
    simp only [addAux] at h
    cases ht : t (i % dieHashSize) with
    | none =>
      simp only [ht] at h
      exact absurd h (by simp)
    | some e0 =>
      simp only [ht] at h
      split at h
      · exact absurd h (by simp)
      · exact ih (i + 1) h

theorem add_die_hash_entry_error {t : DieHash} {e : DieHashEntry} {er : Err}
    (h : add_die_hash_entry t e = .error er) : er = .noMemory :=
  addAux_error_noMemory dieHashSize _ h

theorem dieStep_insertion_cases :
    ∀ (ctx : CuCtx) (t : DieHash) (rest : Bytes) (depth code : Nat) (r1 r2 : Bytes)
      (nm : Option Bytes) (sib : Option Nat) (after : List Nat),
      read_uleb128 rest = .ok (code, r1) → code ≠ 0 → code ≤ ctx.decls.length →
      runCmds ctx (ctx.decls.getD (code - 1) ⟨[]⟩).cmds r1 none none = .ok (r2, nm, sib, after) →
      ((depth = 1 ∧ nm ≠ none ∧ after.getD 0 0 % 256 ≠ 0 →
        (dieStep ctx t rest depth = .error .noMemory ∧
          add_die_hash_entry t ⟨nm.getD [], after.getD 0 0 % 256, ctx.cuId,
            ctx.cuBytes.length - rest.length⟩ = .error .noMemory) ∨
        (∃ t' r' d', add_die_hash_entry t ⟨nm.getD [], after.getD 0 0 % 256, ctx.cuId,
            ctx.cuBytes.length - rest.length⟩ = .ok t' ∧
          dieStep ctx t rest depth = .ok (.next r' d' t' (some ⟨nm.getD [],
            after.getD 0 0 % 256, ctx.cuId, ctx.cuBytes.length - rest.length⟩)))) ∧
      (¬(depth = 1 ∧ nm ≠ none ∧ after.getD 0 0 % 256 ≠ 0) →
        dieStep ctx t rest depth = .ok (.exit t) ∨
        ∃ r' d', dieStep ctx t rest depth = .ok (.next r' d' t none))) := by
  intro ctx t rest depth code r1 r2 nm sib after hu hc0 hcle hrc
  obtain ⟨R, D, hstep⟩ : ∃ R D, dieStep ctx t rest depth =
      match (match dieEntry ctx rest depth nm after with
             | some e => add_die_hash_entry t e
             | none => .ok t) with
      | .error e => .error e
      | .ok t' =>
        if after.getD 1 0 % 256 ≠ 0 then
          .ok (.next R D t' (dieEntry ctx rest depth nm after))
        else if depth = 0 then .ok (.exit t')
        else .ok (.next r2 depth t' (dieEntry ctx rest depth nm after)) := by
    cases sib with
    | some tmp =>
      refine ⟨ctx.cuBytes.drop tmp, depth, ?_⟩
      unfold dieStep
      simp only [hu]
      rw [if_neg hc0, if_neg (by omega)]
      simp only [hrc]
    | none =>
      refine ⟨r2, (depth + 1) % 4294967296, ?_⟩
      unfold dieStep
      simp only [hu]
      rw [if_neg hc0, if_neg (by omega)]
      simp only [hrc]
  constructor
  · intro hcond
    obtain ⟨hd1, hnm, htag⟩ := hcond
    have hins : dieEntry ctx rest depth nm after = some ⟨nm.getD [],
        after.getD 0 0 % 256, ctx.cuId, ctx.cuBytes.length - rest.length⟩ := by
      rw [dieEntry, if_pos ⟨hd1, hnm, htag⟩]
    simp only [hins] at hstep
    cases hadd : add_die_hash_entry t ⟨nm.getD [], after.getD 0 0 % 256, ctx.cuId,
        ctx.cuBytes.length - rest.length⟩ with
    | error er =>
      have her := add_die_hash_entry_error hadd
      subst her
      simp only [hadd] at hstep
      exact Or.inl ⟨hstep, rfl⟩
    | ok t' =>
      right
      simp only [hadd] at hstep
      by_cases hch : after.getD 1 0 % 256 ≠ 0
      · rw [if_pos hch] at hstep
        exact ⟨t', R, D, rfl, hstep⟩
      · rw [if_neg hch, if_neg (by omega : ¬ depth = 0)] at hstep
        exact ⟨t', r2, depth, rfl, hstep⟩
  · intro hcond
    have hins : dieEntry ctx rest depth nm after = none := by
      rw [dieEntry, if_neg hcond]
    simp only [hins] at hstep
    by_cases hch : after.getD 1 0 % 256 ≠ 0
    · rw [if_pos hch] at hstep
      exact Or.inr ⟨R, D, hstep⟩
    · rw [if_neg hch] at hstep
      by_cases hd0 : depth = 0
      · rw [if_pos hd0] at hstep
        exact Or.inl hstep
      · rw [if_neg hd0] at hstep
        exact Or.inr ⟨r2, depth, hstep⟩

/-- The CU context of the C2 witness: one abbreviation whose compiled
commands are `[ATTRIB_NAME_STRING, 0, DW_TAG_variable, 0]`, and a CU slice
holding one DIE with code 1 and the name string "A". -/
def c2Ctx : CuCtx := ⟨[1, 65, 0], [], [⟨[255, 0, 52, 0]⟩], false, 0⟩

/-- Claim C2: over one step of the DIE loop of `index_cu`, a DIE is handed
to `add_die_hash_entry` exactly when it sits at depth 1, a name was
extracted for it, and its abbreviation's filtered tag byte is nonzero — in
every other case the loop continues (or exits) with the hash table
unchanged and no entry recorded (first conjunct). The filtered tag byte
stored by `read_abbrev_decl` is nonzero only when the declared tag is one
of base_type, class_type, enumeration_type, structure_type, typedef,
union_type, variable, and, unless the tag is `DW_TAG_variable`, no
attribute pair of the abbreviation names `DW_AT_declaration` (second
conjunct). -/
theorem die_insertion_iff_depth_name_tag :
    (∀ (ctx : CuCtx) (t : DieHash) (rest : Bytes) (depth code : Nat) (r1 r2 : Bytes)
      (nm : Option Bytes) (sib : Option Nat) (after : List Nat),
      read_uleb128 rest = .ok (code, r1) → code ≠ 0 → code ≤ ctx.decls.length →
      runCmds ctx (ctx.decls.getD (code - 1) ⟨[]⟩).cmds r1 none none = .ok (r2, nm, sib, after) →
      ((depth = 1 ∧ nm ≠ none ∧ after.getD 0 0 % 256 ≠ 0 →
        (dieStep ctx t rest depth = .error .noMemory ∧
          add_die_hash_entry t ⟨nm.getD [], after.getD 0 0 % 256, ctx.cuId,
            ctx.cuBytes.length - rest.length⟩ = .error .noMemory) ∨
        (∃ t' r' d', add_die_hash_entry t ⟨nm.getD [], after.getD 0 0 % 256, ctx.cuId,
            ctx.cuBytes.length - rest.length⟩ = .ok t' ∧
          dieStep ctx t rest depth = .ok (.next r' d' t' (some ⟨nm.getD [],
            after.getD 0 0 % 256, ctx.cuId, ctx.cuBytes.length - rest.length⟩)))) ∧
      (¬(depth = 1 ∧ nm ≠ none ∧ after.getD 0 0 % 256 ≠ 0) →
        dieStep ctx t rest depth = .ok (.exit t) ∨
        ∃ r' d', dieStep ctx t rest depth = .ok (.next r' d' t none)))) ∧
    (∀ (bs : Bytes) (n a : Nat) (i : Bool) (d : AbbrevDecl) (r : Bytes),
      read_abbrev_decl bs n a i = .ok (some d, r) →
      ∃ code r1 tagD r2 children r3 ps cmds tagF,
        read_uleb128 bs = .ok (code, r1) ∧
        read_uleb128 r1 = .ok (tagD, r2) ∧
        read_u8 r2 = .ok (children, r3) ∧
        decodePairs r3 = some (ps, r) ∧
        d.cmds = cmds ++ [0, tagF % 256, children] ∧
        (tagF % 256 ≠ 0 →
          (tagD = DW_TAG_base_type ∨ tagD = DW_TAG_class_type ∨
           tagD = DW_TAG_enumeration_type ∨ tagD = DW_TAG_structure_type ∨
           tagD = DW_TAG_typedef ∨ tagD = DW_TAG_union_type ∨ tagD = DW_TAG_variable) ∧
          (tagD = DW_TAG_variable ∨ ∀ p ∈ ps, p.1 ≠ DW_AT_declaration))) :=
  ⟨dieStep_insertion_cases, read_abbrev_decl_tag_filter⟩

/-- Witness for C2: the single DIE of `c2Ctx` — depth 1, named "A", filtered
tag `DW_TAG_variable` — is handed to the hash insertion; and the abbreviation
`[code 1, tag DW_TAG_variable, no children, (DW_AT_name, DW_FORM_string)]`
passes the tag filter with a nonzero stored tag. -/
theorem die_insertion_iff_depth_name_tag_witness :
    ((dieStep c2Ctx emptyDieHash [1, 65, 0] 1 = .error .noMemory ∧
      add_die_hash_entry emptyDieHash ⟨[65], 52, 0, 0⟩ = .error .noMemory) ∨
     (∃ t' r' d', add_die_hash_entry emptyDieHash ⟨[65], 52, 0, 0⟩ = .ok t' ∧
       dieStep c2Ctx emptyDieHash [1, 65, 0] 1 =
         .ok (.next r' d' t' (some ⟨[65], 52, 0, 0⟩)))) ∧
    (∃ code r1 tagD r2 children r3 ps cmds tagF,
      read_uleb128 [1, 52, 0, 3, 8, 0, 0] = .ok (code, r1) ∧
      read_uleb128 r1 = .ok (tagD, r2) ∧
      read_u8 r2 = .ok (children, r3) ∧
      decodePairs r3 = some (ps, []) ∧
      (⟨[255, 0, 52, 0]⟩ : AbbrevDecl).cmds = cmds ++ [0, tagF % 256, children] ∧
      (tagF % 256 ≠ 0 →
        (tagD = DW_TAG_base_type ∨ tagD = DW_TAG_class_type ∨
         tagD = DW_TAG_enumeration_type ∨ tagD = DW_TAG_structure_type ∨
         tagD = DW_TAG_typedef ∨ tagD = DW_TAG_union_type ∨ tagD = DW_TAG_variable) ∧
        (tagD = DW_TAG_variable ∨ ∀ p ∈ ps, p.1 ≠ DW_AT_declaration))) := by
  constructor
  · exact (die_insertion_iff_depth_name_tag.1 c2Ctx emptyDieHash [1, 65, 0] 1 1 [65, 0] []
      (some [65]) none [52, 0] rfl (by decide) (by decide) rfl).1 (by decide)
  · exact die_insertion_iff_depth_name_tag.2 [1, 52, 0, 3, 8, 0, 0] 0 8 false
      ⟨[255, 0, 52, 0]⟩ []
      (by simp [read_abbrev_decl, read_uleb128, read_uleb128_go, read_u8, attrLoop_unfold,
        processPair, DW_TAG_base_type, DW_TAG_class_type, DW_TAG_enumeration_type,
        DW_TAG_structure_type, DW_TAG_typedef, DW_TAG_union_type, DW_TAG_variable,
        DW_AT_sibling, DW_AT_name, DW_AT_declaration, DW_FORM_addr, DW_FORM_block2,
        DW_FORM_block4, DW_FORM_data2, DW_FORM_data4, DW_FORM_data8, DW_FORM_string,
        DW_FORM_block1, DW_FORM_data1, DW_FORM_flag, DW_FORM_sdata, DW_FORM_strp,
        DW_FORM_udata, DW_FORM_ref_addr, DW_FORM_ref1, DW_FORM_ref2, DW_FORM_ref4,
        DW_FORM_ref8, DW_FORM_ref_udata, DW_FORM_indirect, DW_FORM_sec_offset,
        DW_FORM_exprloc, DW_FORM_flag_present, DW_FORM_ref_sig8, ATTRIB_NAME_STRING])

/-- A 32-bit compilation unit (unit_length 9, so `end` is at offset 13 =
the slice's length) whose single DIE has abbreviation code 1 and a
`DW_AT_sibling`/`DW_FORM_ref1` attribute with value 11 — the offset of the
DIE itself — and a nonzero children byte. The compiled commands are
`[ATTRIB_SIBLING_REF1, 0, DW_TAG_variable, 1]`. The sibling offset passes
the `in_bounds(cu->ptr, end, tmp)` check (11 ≤ 13) although it points
backwards, at the DIE being read. -/
def ctxBad : CuCtx := ⟨[9, 0, 0, 0, 4, 0, 0, 0, 0, 0, 8, 1, 11], [],
  [⟨[249, 0, 52, 1]⟩], false, 0⟩

theorem runIndexCu_ctxBad : ∀ (fuel : Nat) (t : DieHash),
    runIndexCu ctxBad fuel t [1, 11] 0 = none := by
  intro fuel
  induction fuel with
  | zero => intro t; rfl
  | succ n ih =>
    intro t
    have hstep : dieStep ctxBad t [1, 11] 0 = .ok (.next [1, 11] 0 t none) := rfl
    simp only [runIndexCu, hstep]
    exact ih t

/-- Claim C4 is refuted: the DIE loop of `index_cu` can run forever. A
sibling pointer is checked only to lie within `[cu->ptr, end]`, not to lie
forward of the current position, so a DIE whose `DW_AT_sibling` attribute
points back at the DIE itself (context `ctxBad`) makes every iteration jump
back to the same position at the same depth with the same table: for every
iteration budget the loop is still running. -/
theorem index_cu_backward_sibling_loop :
    ∀ fuel : Nat, index_cu_run ctxBad emptyDieHash fuel = none := by
  intro fuel
  exact runIndexCu_ctxBad fuel emptyDieHash

/-- The fields `read_compilation_unit_header` fills in
`struct compilation_unit`. -/
structure CuHeader where
  is64 : Bool
  unitLength : Nat
  version : Nat
  abbrevOff : Nat
  addressSize : Nat

/-- `read_compilation_unit_header`: the initial 32-bit word (0xffffffff
selects the 64-bit format and the unit length follows as a u64), the
version (2, 3 or 4, otherwise `"unknown DWARF version"`), the
`.debug_abbrev` offset (u64 or u32 by format) and the address size. -/
def read_compilation_unit_header (bs : Bytes) : Except Err CuHeader :=
  match read_u32 bs with
  | .error e => .error e
  | .ok (tmp, r1) =>
    match (if tmp = 4294967295 then read_u64 r1 else .ok (tmp, r1)) with
    | .error e => .error e
    | .ok (unitLength, r2) =>
      match read_u16 r2 with
      | .error e => .error e
      | .ok (version, r3) =>
        if version ≠ 2 ∧ version ≠ 3 ∧ version ≠ 4 then
          .error (.dwarfFormat "unknown DWARF version")
        else
          match (if tmp = 4294967295 then read_u64 r3 else read_u32 r3) with
          | .error e => .error e
          | .ok (abbrevOff, r4) =>
            match read_u8 r4 with
            | .error e => .error e
            | .ok (addressSize, _) =>
              .ok ⟨tmp = 4294967295, unitLength, version, abbrevOff, addressSize⟩

/-- What `read_cus` keeps of one compilation unit for the later `index_cu`
pass: the CU's byte slice (`cu->ptr` up to `(is_64_bit ? 12 : 4) +
unit_length`, truncated at the section end), the format flag, the address
size and the dense abbreviation vector. -/
structure CuRec where
  cuBytes : Bytes
  is64 : Bool
  addressSize : Nat
  decls : List AbbrevDecl

/-- The `while (ptr < debug_info_end)` loop of `read_cus`: read a CU header
at the current offset, read its abbreviation table at
`debug_abbrev.buffer + cu->debug_abbrev_offset`, record the CU and advance
by `(is_64_bit ? 12 : 4) + unit_length`. -/
def read_cus_go (info abbrevSec : Bytes) (off : Nat) (acc : List CuRec) :
    Except Err (List CuRec) :=
  if h : off < info.length then
    match read_compilation_unit_header (info.drop off) with
    | .error e => .error e
    | .ok hdr =>
      match read_abbrev_table (abbrevSec.drop hdr.abbrevOff) hdr.addressSize hdr.is64 with
      | .error e => .error e
      | .ok decls =>
        read_cus_go info abbrevSec (off + ((if hdr.is64 then 12 else 4) + hdr.unitLength))
          (acc ++ [⟨(info.drop off).take ((if hdr.is64 then 12 else 4) + hdr.unitLength),
            hdr.is64, hdr.addressSize, decls⟩])
  else .ok acc
termination_by info.length - off
decreasing_by
  simp only [dite_eq_ite]
  have h4 : 4 ≤ (if hdr.is64 then 12 else 4) := by cases hdr.is64 <;> simp
  omega

/-- `read_cus` over the whole `.debug_info` section. -/
def read_cus (info abbrevSec : Bytes) : Except Err (List CuRec) :=
  read_cus_go info abbrevSec 0 []

/-- The `index_cu` loop of `DwarfIndex_init` over the CUs of one file, each
run with the given iteration budget; the list position is the CU identity. -/
def indexCus (str : Bytes) (fuel : Nat) : List CuRec → Nat → DieHash →
    Option (Except Err DieHash)
  | [], _, t => some (.ok t)
  | c :: cs, i, t =>
    match index_cu_run ⟨c.cuBytes, str, c.decls, c.is64, i⟩ t fuel with
    | none => none
    | some (.error e) => some (.error e)
    | some (.ok t') => indexCus str fuel cs (i + 1) t'

/-- One input file as `DwarfIndex_init` sees it after `read_sections`: the
three debug sections, their paired RELA sections, and the symbol table. -/
structure FileSections where
  debugAbbrev : Bytes
  debugInfo : Bytes
  debugStr : Bytes
  relaAbbrev : List Rela
  relaInfo : List Rela
  relaStr : List Rela
  symtabSize : Nat
  stValue : Nat → Nat

/-- The per-file body of `DwarfIndex_init` after `read_sections`: apply
relocations to `.debug_abbrev`, `.debug_info` and `.debug_str` in section
order, require `.debug_str` to be non-empty with a NUL last byte (else
`DwarfFormatError(".debug_str is not null terminated")`), then `read_cus`
and index every CU; `none` when an `index_cu` budget runs out. -/
def processFile (fs : FileSections) (fuel : Nat) : Option (Except Err DieHash) :=
  match apply_relocations fs.debugAbbrev fs.relaAbbrev fs.symtabSize fs.stValue with
  | .error e => some (.error e)
  | .ok abbrevSec =>
    match apply_relocations fs.debugInfo fs.relaInfo fs.symtabSize fs.stValue with
    | .error e => some (.error e)
    | .ok info =>
      match apply_relocations fs.debugStr fs.relaStr fs.symtabSize fs.stValue with
      | .error e => some (.error e)
      | .ok str =>
        if str.length = 0 ∨ byteAt str (str.length - 1) % 256 ≠ 0 then
          some (.error (.dwarfFormat ".debug_str is not null terminated"))
        else
          match read_cus info abbrevSec with
          | .error e => some (.error e)
          | .ok cus => indexCus str fuel cus 0 emptyDieHash

theorem cstr_cons (b : Nat) (r : Bytes) :
    cstr (b :: r) = if b % 256 ≠ 0 then b % 256 :: cstr r else [] := by
  simp only [cstr, List.map_cons, List.takeWhile_cons]
  by_cases h : b % 256 = 0 <;> simp [h]

theorem cstr_nul : ∀ (bs : Bytes), (∃ b ∈ bs, b % 256 = 0) →
    (cstr bs).length < bs.length ∧ byteAt bs (cstr bs).length % 256 = 0 := by
  intro bs
  induction bs with
  | nil =>
    rintro ⟨b, hb, _⟩
    cases hb
  | cons b r ih =>
    rintro ⟨x, hx, hx0⟩
    by_cases hb : b % 256 = 0
    · rw [cstr_cons, if_neg (not_not_intro hb)]
      exact ⟨by simp, by simpa [byteAt] using hb⟩
    · have hxr : x ∈ r := by
        rcases List.mem_cons.mp hx with h | h
        · exact absurd (h ▸ hx0) hb
        · exact h
      obtain ⟨h1, h2⟩ := ih ⟨x, hxr, hx0⟩
      rw [cstr_cons, if_pos hb]
      refine ⟨by simpa using Nat.succ_lt_succ h1, ?_⟩
      simpa [byteAt] using h2

theorem byteAt_drop (l : Bytes) (i k : Nat) : byteAt (l.drop i) k = byteAt l (i + k) := by
  simp [byteAt, List.getD_eq_getElem?_getD, List.getElem?_drop]

theorem byteAt_mem (l : Bytes) (k : Nat) (h : k < l.length) : byteAt l k ∈ l := by
  rw [byteAt, List.getD_eq_getElem l 0 h]
  exact List.getElem_mem h

/-- Claim C9: with the three relocation passes succeeding, construction of
a file fails with `DwarfFormatError(".debug_str is not null terminated")` —
before any CU is read or indexed — whenever the relocated `.debug_str`
section is empty or its last byte is not NUL (first conjunct); and when the
check passes, every string offset strictly inside the section yields a name
whose bytes stop before the section end at a NUL byte, so the name recorded
for a `DW_FORM_strp` attribute is NUL-terminated within `.debug_str`
(second conjunct). -/
theorem debug_str_nul_guard :
    (∀ (fs : FileSections) (fuel : Nat) (a' i' s' : Bytes),
      apply_relocations fs.debugAbbrev fs.relaAbbrev fs.symtabSize fs.stValue = .ok a' →
      apply_relocations fs.debugInfo fs.relaInfo fs.symtabSize fs.stValue = .ok i' →
      apply_relocations fs.debugStr fs.relaStr fs.symtabSize fs.stValue = .ok s' →
      (s'.length = 0 ∨ byteAt s' (s'.length - 1) % 256 ≠ 0) →
      processFile fs fuel = some (.error (.dwarfFormat ".debug_str is not null terminated"))) ∧
    (∀ (s' : Bytes), s'.length ≠ 0 → byteAt s' (s'.length - 1) % 256 = 0 →
      ∀ tmp, tmp < s'.length →
        tmp + (cstr (s'.drop tmp)).length < s'.length ∧
        byteAt s' (tmp + (cstr (s'.drop tmp)).length) % 256 = 0) := by
  constructor
  · intro fs fuel a' i' s' h1 h2 h3 hbad
    unfold processFile
    simp only [h1, h2, h3]
    rw [if_pos hbad]
  · intro s' hne hlast tmp htmp
    have hmem : byteAt s' (s'.length - 1) ∈ s'.drop tmp := by
      have heq : byteAt (s'.drop tmp) (s'.length - 1 - tmp) = byteAt s' (s'.length - 1) := by
        rw [byteAt_drop]
        congr 1
        omega
      rw [← heq]
      apply byteAt_mem
      rw [List.length_drop]
      omega
    obtain ⟨h1, h2⟩ := cstr_nul (s'.drop tmp) ⟨byteAt s' (s'.length - 1), hmem, hlast⟩
    rw [List.length_drop] at h1
    constructor
    · omega
    · rw [← byteAt_drop]
      exact h2

/-- The C9 witness file: empty `.debug_abbrev` and `.debug_info`, a
`.debug_str` of one non-NUL byte, and no relocations. -/
def c9File : FileSections := ⟨[], [], [65], [], [], [], 0, fun _ => 0⟩

/-- Witness for C9: the file whose `.debug_str` is the single byte 65 is
rejected with the `.debug_str` format error; and in the NUL-terminated
section `[66, 0]` the name read at offset 0 stops at the NUL byte before
the section end. -/
theorem debug_str_nul_guard_witness :
    processFile c9File 1 = some (.error (.dwarfFormat ".debug_str is not null terminated")) ∧
    (0 + (cstr (([66, 0] : Bytes).drop 0)).length < ([66, 0] : Bytes).length ∧
      byteAt [66, 0] (0 + (cstr (([66, 0] : Bytes).drop 0)).length) % 256 = 0) := by
  constructor
  · exact debug_str_nul_guard.1 c9File 1 [] [] [65] rfl rfl rfl (by decide)
  · exact debug_str_nul_guard.2 [66, 0] (by decide) (by decide) 0 (by decide)
